import Mathlib

/-!
Verification of the binary ICC-profile codec implemented in
`mhc_icc_gui.py` (MHC ICC Profile Maker).

The Python source is shallowly embedded: byte strings become `List ℕ`
(each element a byte value), Python `str` values become `List Char`
(for hex text) or `List ℕ` (for code-point sequences), Python `int`
becomes `ℤ`/`ℕ`, Python `float` in the fixed-point codec becomes `ℚ`
(all arithmetic performed there — multiplication/division by the power
of two 65536 and rounding — is exact in IEEE double precision over the
relevant range, so `ℚ` is a faithful model), and code that can raise
becomes `Except`/`Option`.
-/

namespace MhcIcc

/-- Error taxonomy: each constructor corresponds to one `raise
ValueError(...)` site (or a `struct`/codec failure mode) of the source. -/
inductive Err where
  | overflow
  | oddHexLength
  | badHexValue
  | intToHexRange
  | headerSizeMismatch
  | notTextType
  | mlucTooSmall
  | notMluc
  | recordTruncated (i : ℕ)
  | recordOutOfBounds (i : ℕ)
  | tooSmall
  | truncatedField (key : String)
  | missingSignature
  | tagTableExceeds
  | tagOutOfBounds (i : ℕ)
  | tagOverlapsDirectory (i : ℕ)
  | tagSizeMismatch (i : ℕ)
  | nonAsciiSignature
  | packRange
  | profileSizeMismatch
  deriving DecidableEq, Repr

deriving instance DecidableEq for Except

/-! ## Fixed-point codec (`to_s15fixed16` / `from_s15fixed16`) -/

/-- Python 3 `round`: round half to even (banker's rounding). -/
def pyRound (x : ℚ) : ℤ :=
  let f := ⌊x⌋
  if x - f < 1/2 then f
  else if 1/2 < x - f then f + 1
  else if Even f then f else f + 1

/-- `def to_s15fixed16(value): return int(round(value * 65536))`.
The source performs no range check: the function is total. -/
def to_s15fixed16 (value : ℚ) : ℤ :=
  pyRound (value * 65536)

/-- `def from_s15fixed16(raw)`:
`raw & 0x80000000` is nonzero exactly when bit 31 of the two's-complement
representation of the (arbitrary-precision) integer is set, i.e. when
`raw.emod 2^32 ≥ 2^31`; `-((~raw + 1) & 0xFFFFFFFF)` equals
`-((-raw).emod 2^32)` since `~raw + 1 = -raw` and masking with
`0xFFFFFFFF` is reduction mod `2^32`. -/
def from_s15fixed16 (raw : ℤ) : ℚ :=
  let raw2 : ℤ := if 2 ^ 31 ≤ raw % 2 ^ 32 then -((-raw) % 2 ^ 32) else raw
  (raw2 : ℚ) / 65536

/-- Modelled from the spec: the fixed-point encoder as §4.1/§8 of the
spec describe it — values outside `[-32768, 32767.99998]` fail with
`Overflow` at encode time.  The source `to_s15fixed16` has no such
check; this definition exists only to state the divergence. -/
def to_s15fixed16_specCheck (value : ℚ) : Except Err ℤ :=
  if value < -32768 ∨ (32767.99998 : ℚ) < value then .error .overflow
  else .ok (pyRound (value * 65536))

/-! ## `text` tag codec (`parse_text_type` / `build_text_type`)

Python strings are modelled as lists of Unicode code points. -/

/-- `bytes.decode("ascii", errors="replace")`, per byte: bytes above
`0x7F` decode to U+FFFD. -/
def asciiDecodeReplace (b : ℕ) : ℕ := if b ≤ 127 then b else 65533

/-- `str.encode("ascii", errors="replace")`, per code point:
non-ASCII code points encode to `'?'` (byte 63). -/
def asciiEncodeReplace (s : List ℕ) : List ℕ :=
  s.map (fun c => if c ≤ 127 then c else 63)

/-- `build_text_type`: `b"text"` + 4 zero bytes + ASCII payload, then
zero bytes appended while the length is not a multiple of 4. -/
def build_text_type (content : List ℕ) : List ℕ :=
  let blob := [116, 101, 120, 116] ++ [0, 0, 0, 0] ++ asciiEncodeReplace content
  blob ++ List.replicate ((4 - blob.length % 4) % 4) 0

/-- `parse_text_type`: requires at least 8 bytes starting with
`b"text"`, then strips trailing zero bytes from `data[8:]` and decodes
as ASCII with replacement. -/
def parse_text_type (data : List ℕ) : Except Err (List ℕ) :=
  if data.length < 8 ∨ data.take 4 ≠ [116, 101, 120, 116] then
    .error .notTextType
  else
    .ok (((data.drop 8).reverse.dropWhile (· == 0)).reverse.map asciiDecodeReplace)

/-! ## `curv` tag builder (`build_trc_bytes`) -/

/-- Big-endian 32-bit encoding; equals `struct.pack(">I", n)` for
`n < 2^32` (all call sites proved about stay below `2^32`). -/
def be32 (n : ℕ) : List ℕ :=
  [n / 2 ^ 24 % 256, n / 2 ^ 16 % 256, n / 2 ^ 8 % 256, n % 256]

/-- Big-endian 16-bit encoding; equals `struct.pack(">H", n)` for
`n < 2^16`. -/
def be16 (n : ℕ) : List ℕ := [n / 256 % 256, n % 256]

/-- `build_trc_bytes`: `count == 1` emits the `u8Fixed8` gamma form —
`b"curv"` + 4 zero bytes + uint32 count 1 + clamped 16-bit value + two
zero pad bytes; otherwise a `count`-length sequence of clamped 16-bit
samples follows the count. -/
def build_trc_bytes (values : List ℤ) : List ℕ :=
  if values.length = 1 then
    let gamma_fixed := (max 0 (min 65535 (values.headD 0))).toNat
    [99, 117, 114, 118] ++ [0, 0, 0, 0] ++ be32 1 ++ be16 gamma_fixed
      ++ [0, 0]
  else
    [99, 117, 114, 118] ++ [0, 0, 0, 0] ++ be32 values.length
      ++ ((values.map (fun v => be16 (max 0 (min 65535 v)).toNat)).flatten)

/-! ## `mluc` tag parser (`parse_mluc`) -/

/-- Big-endian uint32 read at byte position `i`
(`struct.unpack_from(">I", data, i)`; every use site has already
established that `i + 4` is within bounds). -/
def be32At (d : List ℕ) (i : ℕ) : ℕ :=
  d.getD i 0 * 16777216 + d.getD (i + 1) 0 * 65536
    + d.getD (i + 2) 0 * 256 + d.getD (i + 3) 0

/-- One parsed mluc record.  The source stores the decoded UTF-16BE
string under key `"text"`; `textBytes` holds the raw slice
`data[offset : offset + length]` that the source decodes (UTF-16BE
decoding itself is presentation, and is injective on the valid
sequences used in the theorems below). -/
structure MlucRecord where
  lang : List ℕ
  country : List ℕ
  length : ℕ
  offset : ℕ
  textBytes : List ℕ
  deriving DecidableEq, Repr

/-- The record-reading loop of `parse_mluc`: records are read at
`base = 16 + i * recSize`; a record whose 12-byte table entry does not
fit fails with `recordTruncated`, one whose string window exceeds the
buffer fails with `recordOutOfBounds`. -/
def mlucRecords (data : List ℕ) (recSize : ℕ) : ℕ → ℕ → Except Err (List MlucRecord)
  | 0, _ => .ok []
  | Nat.succ n, i =>
    let base := 16 + i * recSize
    if data.length < base + 12 then .error (.recordTruncated i)
    else
      let len := be32At data (base + 4)
      let off := be32At data (base + 8)
      if data.length < off + len then .error (.recordOutOfBounds i)
      else
        match mlucRecords data recSize n (i + 1) with
        | .error e => .error e
        | .ok rest =>
            .ok (⟨(data.drop base).take 2, (data.drop (base + 2)).take 2,
                  len, off, (data.drop off).take len⟩ :: rest)

/-- `parse_mluc`: requires ≥ 16 bytes and the `mluc` signature; the
declared record size is used only when it is at least 12, otherwise
the stride falls back to 12. -/
def parse_mluc (data : List ℕ) : Except Err (List MlucRecord) :=
  if data.length < 16 then .error .mlucTooSmall
  else if data.take 4 ≠ [109, 108, 117, 99] then .error .notMluc
  else
    let num_recs := be32At data 8
    let rec_size_field := be32At data 12
    let rec_size := if 12 ≤ rec_size_field then rec_size_field else 12
    mlucRecords data rec_size num_recs 0

/-- `data` with its record-size field (bytes 12–15) replaced by the
big-endian encoding of `v`. -/
def setRecSize (data : List ℕ) (v : ℕ) : List ℕ :=
  data.take 12 ++ be32 v ++ data.drop 16

/-! ## Hex text utilities (`clean_hex`, `bytes.fromhex`, `int_to_hex`) -/

/-- Hexadecimal value of a character, `none` when the character is not
a hex digit (the charset of the source's `re` pattern
`[^0-9A-Fa-f]` and of `bytes.fromhex`). -/
def hexVal? (c : Char) : Option ℕ :=
  if '0' ≤ c ∧ c ≤ '9' then some (c.toNat - 48)
  else if 'A' ≤ c ∧ c ≤ 'F' then some (c.toNat - 55)
  else if 'a' ≤ c ∧ c ≤ 'f' then some (c.toNat - 87)
  else none

def isHexDigitChar (c : Char) : Bool := (hexVal? c).isSome

/-- `re.sub(r"[^0-9A-Fa-f]", "", value)`. -/
def clean_hex (s : List Char) : List Char := s.filter isHexDigitChar

/-- The ASCII whitespace `bytes.fromhex` skips between byte pairs. -/
def isPySpace (c : Char) : Bool :=
  c == ' ' || c == '\t' || c == '\n' || c == '\r' || c == '\x0b' || c == '\x0c'

/-- `bytes.fromhex`: pairs of hex digits, ASCII whitespace permitted
between pairs; fails (`ValueError`) on a stray non-hex character or an
odd trailing digit. -/
def pyFromhex : List Char → Option (List ℕ)
  | [] => some []
  | c :: rest =>
    if isPySpace c then pyFromhex rest
    else
      match hexVal? c with
      | none => none
      | some h1 =>
        match rest with
        | [] => none
        | c2 :: rest2 =>
          match hexVal? c2 with
          | none => none
          | some h2 => (pyFromhex rest2).map (fun bs => (16 * h1 + h2) :: bs)

/-- The character `f"{d:X}"` produces for a single hex digit
(uppercase, as in `int_to_hex` / `.hex().upper()`). -/
def hexDigitChar (d : ℕ) : Char :=
  if d < 10 then Char.ofNat (48 + d) else Char.ofNat (55 + d)

/-- The `n` big-endian hex digits of `v` (most significant first). -/
def natHexDigits (v : ℕ) : ℕ → List ℕ
  | 0 => []
  | n + 1 => (v / 16 ^ n % 16) :: natHexDigits v n

/-- The `2*L`-character zero-padded uppercase rendering
`f"{value:0{2*L}X}"`, for values below `256^L` (the only values
`int_to_hex` passes to it). -/
def natToHexChars (v L : ℕ) : List Char :=
  (natHexDigits v (2 * L)).map hexDigitChar

/-- `int_to_hex(value, length_bytes)`: fails when the value does not
fit in `length_bytes` bytes. -/
def int_to_hex (value L : ℕ) : Except Err (List Char) :=
  if 256 ^ L - 1 < value then .error .intToHexRange
  else .ok (natToHexChars value L)

/-! ## Header encoder (`build_header_bytes`)

`HEADER_FIELDS` is the source's descriptor table; the UI-only entries
(`label`, `default_hex`, `choices`, `hidden`) are presentation data and
are not part of the encoder's behaviour. -/

structure HeaderField where
  key : String
  length : ℕ
  ftype : String

def HEADER_FIELDS : List HeaderField := [
  ⟨"size", 4, "size"⟩, ⟨"cmm_type", 4, "sig"⟩, ⟨"version", 4, "version"⟩,
  ⟨"device_class", 4, "choice"⟩, ⟨"color_space", 4, "choice"⟩,
  ⟨"pcs", 4, "choice"⟩, ⟨"date_time", 12, "datetime-fixed"⟩,
  ⟨"acsp", 4, "sig-fixed"⟩, ⟨"platform", 4, "choice"⟩,
  ⟨"flags", 4, "flags"⟩, ⟨"manufacturer", 4, "sig-limited"⟩,
  ⟨"model", 4, "sig-limited"⟩, ⟨"attributes", 8, "attributes"⟩,
  ⟨"rendering_intent", 4, "intent"⟩, ⟨"illuminant", 12, "illuminant"⟩,
  ⟨"creator", 4, "sig-limited"⟩, ⟨"profile_id", 16, "profile_id"⟩,
  ⟨"reserved", 28, "hex"⟩]

/-- The hex text actually decoded for a field: only `"hex"`-typed
fields are run through `clean_hex`. -/
def cleanedOf (f : HeaderField) (v : List Char) : List Char :=
  if f.ftype = "hex" then clean_hex v else v

/-- One loop iteration of `build_header_bytes`: decode the (truncated)
hex text and right-pad with zero bytes to the field length
(`bytes.ljust`). -/
def fieldBytes (hv : String → List Char) (f : HeaderField) : Except Err (List ℕ) :=
  match pyFromhex ((cleanedOf f (hv f.key)).take (2 * f.length)) with
  | none => .error .badHexValue
  | some b => .ok (b ++ List.replicate (f.length - b.length) 0)

def fieldsBytes (hv : String → List Char) : List HeaderField → Except Err (List (List ℕ))
  | [] => .ok []
  | f :: rest =>
    match fieldBytes hv f with
    | .error e => .error e
    | .ok fb =>
      match fieldsBytes hv rest with
      | .error e => .error e
      | .ok tl => .ok (fb :: tl)

/-- `build_header_bytes(size_override)`: copies the header map,
overrides the size field, encodes every field in table order
(concatenation of the per-field byte segments) and checks the result
is exactly 128 bytes. -/
def build_header_bytes (hv : String → List Char) (size_override : ℕ) :
    Except Err (List ℕ) :=
  match int_to_hex size_override 4 with
  | .error e => .error e
  | .ok sizeHex =>
    let hv' := fun k => if k = "size" then sizeHex else hv k
    match fieldsBytes hv' HEADER_FIELDS with
    | .error e => .error e
    | .ok segs =>
      if segs.flatten.length ≠ 128 then .error .headerSizeMismatch
      else .ok segs.flatten

/-- Modelled from the spec: "left-pads … any field whose supplied hex
is short" — zero bytes prepended up to the field length.  The source
uses `bytes.ljust`, which appends them instead; this definition exists
only to state that divergence. -/
def leftPadSpec (L : ℕ) (bs : List ℕ) : List ℕ :=
  List.replicate (L - bs.length) 0 ++ bs

/-- What `build_header_bytes` emits for one field: a segment of exactly
the field's byte length, the decoded (truncated) hex right-padded with
zero bytes. -/
def SegSpec (hv : String → List Char) (seg : List ℕ) (f : HeaderField) : Prop :=
  seg.length = f.length ∧
  ∃ d, pyFromhex ((hv f.key).take (2 * f.length)) = some d ∧
    seg = d ++ List.replicate (f.length - d.length) 0

def fieldValid (hv : String → List Char) (f : HeaderField) : Prop :=
  (hv f.key).length % 2 = 0 ∧ ∀ c ∈ hv f.key, (hexVal? c).isSome

/-! ## Tag layout (`TagEntry.data_bytes`, `_layout_tags`)

The source `TagEntry` dataclass also carries a human-readable
`description` (UI presentation, out of the codec's scope per the spec);
the fields the codec reads are modelled here.  `signature` holds the
code points of the signature string, `data_hex` the hex text of the
tag data. -/

structure TagEntry where
  signature : List ℕ
  data_hex : List Char
  offset : ℕ := 0
  deriving DecidableEq, Repr, Inhabited

/-- `TagEntry.data_bytes`: `clean_hex` then `bytes.fromhex`, rejecting
an odd number of hex characters. -/
def TagEntry.data_bytes (t : TagEntry) : Except Err (List ℕ) :=
  let cleaned := clean_hex t.data_hex
  if cleaned.length % 2 = 1 then .error .oddHexLength
  else
    match pyFromhex cleaned with
    | none => .error .badHexValue
    | some b => .ok b

/-- The loop of `_layout_tags`: `data_offsets` is the
content-addressed map (association list, newest first; a key is only
inserted when absent, so it is never shadowed), `cursor` the running
offset.  Returns the per-tag `(tag, offset, size)` layout, the data
section, and the total size. -/
def layoutGo : List TagEntry → List (List ℕ × ℕ) → ℕ →
    Except Err (List (TagEntry × ℕ × ℕ) × List ℕ × ℕ)
  | [], _, cursor => .ok ([], [], cursor)
  | t :: rest, data_offsets, cursor =>
    match t.data_bytes with
    | .error e => .error e
    | .ok data =>
      match data_offsets.lookup data with
      | some off =>
        match layoutGo rest data_offsets cursor with
        | .error e => .error e
        | .ok (lay, blocks, total) =>
            .ok ((t, off, data.length) :: lay, blocks, total)
      | none =>
        let pad := (4 - (cursor + data.length) % 4) % 4
        match layoutGo rest ((data, cursor) :: data_offsets)
            (cursor + data.length + pad) with
        | .error e => .error e
        | .ok (lay, blocks, total) =>
            .ok ((t, cursor, data.length) :: lay,
              data ++ List.replicate pad 0 ++ blocks, total)

/-- `_layout_tags`: the data cursor starts right after the tag table
(`128 + 4 + 12 * tagCount`). -/
def _layout_tags (tags : List TagEntry) :
    Except Err (List (TagEntry × ℕ × ℕ) × List ℕ × ℕ) :=
  layoutGo tags [] (128 + (4 + tags.length * 12))

/-- Modelled from the spec: the counterfactual layout the spec's
deduplication property compares against — "if the two payloads were
stored separately", i.e. the same cursor walk but appending every
tag's bytes unconditionally.  Only the total size is relevant. -/
def layoutNoDedupGo : List TagEntry → ℕ → Except Err ℕ
  | [], cursor => .ok cursor
  | t :: rest, cursor =>
    match t.data_bytes with
    | .error e => .error e
    | .ok data =>
      let pad := (4 - (cursor + data.length) % 4) % 4
      layoutNoDedupGo rest (cursor + data.length + pad)

/-- Modelled from the spec: total profile size with every payload
stored separately (no content-addressed sharing). -/
def _layout_tags_nodedup (tags : List TagEntry) : Except Err ℕ :=
  layoutNoDedupGo tags (128 + (4 + tags.length * 12))

/-- `n` rounded up to the next multiple of 4 — the space one stored
data block occupies in the data section. -/
def roundUp4 (n : ℕ) : ℕ := n + (4 - n % 4) % 4

/-- The padded block sizes of all tags (fails where `data_bytes`
fails). -/
def paddedSizes : List TagEntry → Except Err (List ℕ)
  | [] => .ok []
  | t :: rest =>
    match t.data_bytes with
    | .error e => .error e
    | .ok data =>
      match paddedSizes rest with
      | .error e => .error e
      | .ok l => .ok (roundUp4 data.length :: l)

/-! ## Profile assembly (`build_profile_bytes`)

`hashlib.md5` is external library code; it is modelled as an
uninterpreted digest function passed as a parameter (every theorem
assumes only its 16-byte digest length).  The creation date written
into the header comes from the wall clock (`datetime.now()`); it is
modelled as the parameter `nowHex`.  The UI-synchronisation statements
at the end of the source function mutate Tk variables only and do not
affect the returned bytes. -/

/-- `str.encode("ascii")` — fails on non-ASCII code points. -/
def encodeAscii (s : List ℕ) : Except Err (List ℕ) :=
  if s.all (· ≤ 127) then .ok s else .error .nonAsciiSignature

/-- `struct.pack("4s", b)`: truncate or zero-pad to exactly 4 bytes. -/
def pack4s (b : List ℕ) : List ℕ :=
  b.take 4 ++ List.replicate (4 - b.length) 0

/-- `struct.pack(">I", n)` — fails when the value exceeds uint32. -/
def packU32 (n : ℕ) : Except Err (List ℕ) :=
  if n < 4294967296 then .ok (be32 n) else .error .packRange

/-- The tag-table loop of `build_profile_bytes`:
`struct.pack(">4sII", sig, offset, size)` per layout entry. -/
def buildTagTable : List (TagEntry × ℕ × ℕ) → Except Err (List ℕ)
  | [] => .ok []
  | (t, off, size) :: rest =>
    match encodeAscii t.signature with
    | .error e => .error e
    | .ok sigB =>
      match packU32 off with
      | .error e => .error e
      | .ok offB =>
        match packU32 size with
        | .error e => .error e
        | .ok sizeB =>
          match buildTagTable rest with
          | .error e => .error e
          | .ok tl => .ok (pack4s sigB ++ offB ++ sizeB ++ tl)

/-- `build_profile_bytes`: lay out the tags, refresh the auto-managed
header fields (size, creation date, zeroed profile id), build header +
tag table + data, check the total, then hash with the identifier field
zeroed and splice the digest into bytes 84–100. -/
def build_profile_bytes (md5 : List ℕ → List ℕ) (hv : String → List Char)
    (nowHex : List Char) (tags : List TagEntry) : Except Err (List ℕ) :=
  match _layout_tags tags with
  | .error e => .error e
  | .ok (layout, data_blocks, total_size) =>
    match int_to_hex total_size 4 with
    | .error e => .error e
    | .ok sizeHex =>
      let hv' := fun k => if k = "size" then sizeHex
        else if k = "date_time" then nowHex
        else if k = "profile_id" then List.replicate 32 '0'
        else hv k
      match build_header_bytes hv' total_size with
      | .error e => .error e
      | .ok header =>
        match packU32 tags.length with
        | .error e => .error e
        | .ok countB =>
          match buildTagTable layout with
          | .error e => .error e
          | .ok table =>
            let profile := header ++ (countB ++ table) ++ data_blocks
            if profile.length ≠ total_size then .error .profileSizeMismatch
            else
              let digest := md5 profile
              .ok (profile.take 84 ++ digest ++ profile.drop 100)

/-- What each successful `fieldBytes` emits, with no assumption on the
supplied hex (inversion of the encoder). -/
def SegDecode (hv : String → List Char) (seg : List ℕ) (f : HeaderField) : Prop :=
  seg.length = f.length ∧
  ∃ d, pyFromhex ((cleanedOf f (hv f.key)).take (2 * f.length)) = some d ∧
    seg = d ++ List.replicate (f.length - d.length) 0

/-! ## Profile parsing (`load_profile`)

The file dialog, Tk widget refreshes and message boxes around the
parsing code are UI shell; the parsing logic on the loaded byte string
is modelled.  `header_hex` stores each field's `raw.hex().upper()`
rendering; the unused local `size_field` read of bytes 0–4 is dropped. -/

/-- One byte as two uppercase hex characters (`bytes.hex().upper()`). -/
def byteToHexChars (b : ℕ) : List Char :=
  [hexDigitChar (b / 16 % 16), hexDigitChar (b % 16)]

def bytesToHex (bs : List ℕ) : List Char := (bs.map byteToHexChars).flatten

/-- The header-field loop of `load_profile`: slice each field,
failing if the slice is short. -/
def readHeaderFields (data : List ℕ) :
    List HeaderField → ℕ → Except Err (List (String × List Char))
  | [], _ => .ok []
  | f :: rest, pos =>
    let raw := (data.drop pos).take f.length
    if raw.length ≠ f.length then .error (.truncatedField f.key)
    else
      match readHeaderFields data rest (pos + f.length) with
      | .error e => .error e
      | .ok tl => .ok ((f.key, bytesToHex raw) :: tl)

/-- `struct.unpack_from(">4sII", data, 132 + i*12)`: the directory
entry fields of entry `i`. -/
def dirSig (data : List ℕ) (i : ℕ) : List ℕ :=
  (data.drop (132 + 12 * i)).take 4

def dirOffset (data : List ℕ) (i : ℕ) : ℕ := be32At data (132 + 12 * i + 4)

def dirSize (data : List ℕ) (i : ℕ) : ℕ := be32At data (132 + 12 * i + 8)

def tagCount (data : List ℕ) : ℕ := be32At data 128

def entryChunk (data : List ℕ) (i : ℕ) : List ℕ :=
  (data.drop (dirOffset data i)).take (dirSize data i)

/-- The three per-entry checks of `load_profile`, in source order:
`offset+size` within the file, `offset` past the header/directory
region, sliced byte count equal to the declared size. -/
def entryOk (data : List ℕ) (tEnd : ℕ) (i : ℕ) : Prop :=
  ¬(data.length < dirOffset data i + dirSize data i) ∧
  ¬(dirOffset data i < tEnd) ∧
  (entryChunk data i).length = dirSize data i

instance (data : List ℕ) (tEnd i : ℕ) : Decidable (entryOk data tEnd i) := by
  unfold entryOk
  infer_instance

/-- The failure `load_profile` reports for a bad entry `i` (first
violated check in source order). -/
def entryErr (data : List ℕ) (tEnd : ℕ) (i : ℕ) : Err :=
  if data.length < dirOffset data i + dirSize data i then .tagOutOfBounds i
  else if dirOffset data i < tEnd then .tagOverlapsDirectory i
  else .tagSizeMismatch i

/-- The `TagEntry` `load_profile` retains for a good entry `i`:
signature decoded with ASCII-replace, data kept as uppercase hex of
the sliced chunk, offset recorded. -/
def mkLoadedTag (data : List ℕ) (i : ℕ) : TagEntry :=
  ⟨(dirSig data i).map asciiDecodeReplace, bytesToHex (entryChunk data i),
    dirOffset data i⟩

/-- The directory loop of `load_profile`. -/
def parseEntries (data : List ℕ) (tEnd : ℕ) : ℕ → ℕ → Except Err (List TagEntry)
  | 0, _ => .ok []
  | Nat.succ n, i =>
    if data.length < dirOffset data i + dirSize data i then
      .error (.tagOutOfBounds i)
    else if dirOffset data i < tEnd then .error (.tagOverlapsDirectory i)
    else if (entryChunk data i).length ≠ dirSize data i then
      .error (.tagSizeMismatch i)
    else
      match parseEntries data tEnd n (i + 1) with
      | .error e => .error e
      | .ok tl => .ok (mkLoadedTag data i :: tl)

/-- `load_profile` on a loaded byte string: length check, header
fields, `acsp` signature, tag table bound, per-entry parsing, then the
size field is refreshed from the actual file length. -/
def load_profile (data : List ℕ) :
    Except Err (List (String × List Char) × List TagEntry) :=
  if data.length < 132 then .error .tooSmall
  else
    match readHeaderFields data HEADER_FIELDS 0 with
    | .error e => .error e
    | .ok header_hex =>
      if header_hex.lookup "acsp"
          ≠ some ['6', '1', '6', '3', '7', '3', '7', '0'] then
        .error .missingSignature
      else
        let tag_table_end := 132 + tagCount data * 12
        if data.length < tag_table_end then .error .tagTableExceeds
        else
          match parseEntries data tag_table_end (tagCount data) 0 with
          | .error e => .error e
          | .ok tags =>
            match int_to_hex data.length 4 with
            | .error e => .error e
            | .ok sizeHex =>
              .ok (header_hex.map
                (fun p => if p.1 = "size" then (p.1, sizeHex) else p), tags)

/-- The header slices `readHeaderFields` returns when every field is
in bounds. -/
def headerSlices (data : List ℕ) :
    List HeaderField → ℕ → List (String × List Char)
  | [], _ => []
  | f :: rest, pos =>
    (f.key, bytesToHex ((data.drop pos).take f.length)) ::
      headerSlices data rest (pos + f.length)

/-- Concrete 148-byte profile for the C6 witness: valid `acsp`
signature, one directory entry `desc` at offset 144, size 4. -/
def c6WitnessData : List ℕ :=
  List.replicate 36 0 ++ [97, 99, 115, 112] ++ List.replicate 88 0 ++
    [0, 0, 0, 1] ++ [100, 101, 115, 99] ++ [0, 0, 0, 144] ++ [0, 0, 0, 4] ++
    [1, 2, 3, 4]

theorem pyRound_sub_le (x : ℚ) : |((pyRound x : ℤ) : ℚ) - x| ≤ 1/2 := by
  have hfl : ((⌊x⌋ : ℤ) : ℚ) ≤ x := Int.floor_le x
  have hfu : x < ((⌊x⌋ : ℤ) : ℚ) + 1 := Int.lt_floor_add_one x
  unfold pyRound
  by_cases h1 : x - (⌊x⌋ : ℚ) < 1/2
  · simp only [h1, if_true]
    rw [abs_le]
    constructor <;> linarith
  · simp only [h1, if_false]
    by_cases h2 : (1:ℚ)/2 < x - (⌊x⌋ : ℚ)
    · simp only [h2, if_true]
      rw [abs_le]
      push_cast
      constructor <;> linarith
    · simp only [h2, if_false]
      by_cases h3 : Even ⌊x⌋
      · simp only [h3, if_true]
        rw [abs_le]
        constructor <;> linarith
      · simp only [h3, if_false]
        rw [abs_le]
        push_cast
        constructor <;> linarith

theorem pyRound_ge (x : ℚ) : x - 1/2 ≤ ((pyRound x : ℤ) : ℚ) := by
  have := pyRound_sub_le x
  rw [abs_le] at this
  linarith [this.1]

theorem pyRound_le (x : ℚ) : ((pyRound x : ℤ) : ℚ) ≤ x + 1/2 := by
  have := pyRound_sub_le x
  rw [abs_le] at this
  linarith [this.2]

/-- For `raw` in the signed 32-bit range, `from_s15fixed16` is plain
division by `65536` (the two's-complement branch reproduces `raw`). -/
theorem from_s15fixed16_of_range (raw : ℤ) (hlo : -(2^31) ≤ raw)
    (hhi : raw < 2^31) : from_s15fixed16 raw = (raw : ℚ) / 65536 := by
  unfold from_s15fixed16
  have e32 : (2:ℤ) ^ 32 = 4294967296 := by norm_num
  have e31 : (2:ℤ) ^ 31 = 2147483648 := by norm_num
  rw [e32, e31] at *
  by_cases hneg : raw < 0
  · have hmod : raw % 4294967296 = raw + 4294967296 := by omega
    have hmod2 : (-raw) % 4294967296 = -raw := by omega
    simp only [hmod, hmod2]
    rw [if_pos (by omega)]
    norm_num
  · have hmod : raw % 4294967296 = raw := by omega
    simp only [hmod]
    rw [if_neg (by omega)]

/-- C4: for every value `v` in `[-32768, 32767.99998]`,
`from_s15fixed16 (to_s15fixed16 v)` differs from `v` by at most
`1/65536` in absolute value. -/
theorem C4_fixed_roundtrip (v : ℚ) (h1 : -32768 ≤ v)
    (h2 : v ≤ 32767.99998) :
    |from_s15fixed16 (to_s15fixed16 v) - v| ≤ 1/65536 := by
  unfold to_s15fixed16
  set raw := pyRound (v * 65536) with hraw
  have hge := pyRound_ge (v * 65536)
  have hle := pyRound_le (v * 65536)
  rw [← hraw] at hge hle
  have hlo : -(2^31) ≤ raw := by
    have hq : (-2147483649 : ℚ) < (raw : ℚ) := by nlinarith
    have hz : (-2147483649 : ℤ) < raw := by exact_mod_cast hq
    omega
  have hhi : raw < 2^31 := by
    have hq : (raw : ℚ) < 2147483648 := by nlinarith
    have hz : raw < (2147483648 : ℤ) := by exact_mod_cast hq
    omega
  rw [from_s15fixed16_of_range raw hlo hhi]
  have hdiff : |(raw : ℚ) - v * 65536| ≤ 1/2 := pyRound_sub_le (v * 65536)
  have heq : (raw : ℚ) / 65536 - v = ((raw : ℚ) - v * 65536) / 65536 := by
    ring
  rw [heq, abs_div]
  rw [abs_of_pos (show (0:ℚ) < 65536 by norm_num)]
  rw [div_le_div_iff₀ (by norm_num) (by norm_num)]
  linarith

/-- Witness for C4 at the concrete input `v = 1/3`. -/
theorem C4_fixed_roundtrip_witness :
    ((-32768 : ℚ) ≤ 1/3 ∧ (1/3 : ℚ) ≤ 32767.99998) ∧
      |from_s15fixed16 (to_s15fixed16 (1/3)) - 1/3| ≤ 1/65536 :=
  ⟨⟨by norm_num, by norm_num⟩,
    C4_fixed_roundtrip (1/3) (by norm_num) (by norm_num)⟩

/-- C3 counterexample: at `v = 65536` (far outside `[-32768,
32767.99998]`) the source `to_s15fixed16` returns the integer
`4294967296` instead of failing, while the behaviour the spec describes
(`to_s15fixed16_specCheck`) fails with `Overflow`. -/
theorem C3_counterexample :
    to_s15fixed16 65536 = 4294967296 ∧
      to_s15fixed16_specCheck 65536 = .error .overflow := by
  constructor
  · unfold to_s15fixed16 pyRound
    norm_num
  · unfold to_s15fixed16_specCheck
    rw [if_pos (Or.inr (by norm_num))]

/-- C3 amended: `to_s15fixed16` performs no range check and always
returns an integer; for every `v` with `v ≥ 32768` or
`v < -32768 - 1/131072` the returned integer lies outside the signed
32-bit range `[-2^31, 2^31 - 1]` (so only a later 32-bit pack of the
result can fail — the encoder itself never raises). -/
theorem C3_no_overflow_check (v : ℚ)
    (h : 32768 ≤ v ∨ v < -32768 - 1/131072) :
    to_s15fixed16 v < -(2^31) ∨ (2^31 : ℤ) - 1 < to_s15fixed16 v := by
  unfold to_s15fixed16
  set raw := pyRound (v * 65536) with hraw
  have hge := pyRound_ge (v * 65536)
  have hle := pyRound_le (v * 65536)
  rw [← hraw] at hge hle
  rcases h with h | h
  · right
    have hq : (2147483647 : ℚ) < (raw : ℚ) := by nlinarith
    have hz : (2147483647 : ℤ) < raw := by exact_mod_cast hq
    omega
  · left
    have hq : (raw : ℚ) < -2147483648 := by nlinarith
    have hz : raw < (-2147483648 : ℤ) := by exact_mod_cast hq
    omega

/-- Witness for the amended C3 at `v = 65536`. -/
theorem C3_no_overflow_check_witness :
    ((32768 : ℚ) ≤ 65536 ∨ (65536 : ℚ) < -32768 - 1/131072) ∧
      (to_s15fixed16 65536 < -(2^31) ∨ (2^31 : ℤ) - 1 < to_s15fixed16 65536) :=
  ⟨Or.inl (by norm_num),
    C3_no_overflow_check 65536 (Or.inl (by norm_num))⟩

theorem dropWhile_zeros_append (k : ℕ) (l : List ℕ) :
    List.dropWhile (· == 0) (List.replicate k 0 ++ l)
      = List.dropWhile (· == 0) l := by
  induction k with
  | zero => simp
  | succ n ih => simp [List.replicate_succ, ih]

/-- C8 counterexample: for the ASCII-encodable one-character string
`"\x00"`, the round trip returns the empty string (the trailing NUL is
stripped together with the padding), not the original string. -/
theorem C8_counterexample :
    parse_text_type (build_text_type [0]) = .ok [] ∧
      (Except.ok ([] : List ℕ) : Except Err (List ℕ)) ≠ .ok [0] := by
  constructor
  · rfl
  · simp

/-- C8 amended: for every ASCII-encodable string `s` that does not end
with a NUL character, `parse_text_type (build_text_type s) = s`. -/
theorem C8_text_roundtrip (s : List ℕ) (hascii : ∀ c ∈ s, c ≤ 127)
    (hlast : s.getLast? ≠ some 0) :
    parse_text_type (build_text_type s) = .ok s := by
  have henc : asciiEncodeReplace s = s := by
    unfold asciiEncodeReplace
    rw [List.map_congr_left (g := id) (fun c hc => by
      simp [hascii c hc])]
    exact List.map_id s
  have hdec : s.map asciiDecodeReplace = s := by
    rw [List.map_congr_left (g := id) (fun c hc => by
      simp [asciiDecodeReplace, hascii c hc])]
    exact List.map_id s
  unfold build_text_type parse_text_type
  rw [henc]
  set k := (4 - ([116, 101, 120, 116] ++ [0, 0, 0, 0] ++ s).length % 4) % 4
    with hk
  have hshape :
      ([116, 101, 120, 116] ++ [0, 0, 0, 0] ++ s) ++ List.replicate k 0
        = 116 :: 101 :: 120 :: 116 :: 0 :: 0 :: 0 :: 0 ::
            (s ++ List.replicate k 0) := by
    simp
  rw [hshape]
  rw [if_neg (by simp)]
  congr 1
  rw [show (116 :: 101 :: 120 :: 116 :: 0 :: 0 :: 0 :: 0 ::
      (s ++ List.replicate k 0) : List ℕ).drop 8 = s ++ List.replicate k 0
    from rfl]
  rw [List.reverse_append, List.reverse_replicate, dropWhile_zeros_append]
  rcases hs : s.reverse with _ | ⟨a, t⟩
  · have : s = [] := by simpa using congrArg List.reverse hs
    subst this
    simp
  · have hhead : s.getLast? = some a := by
      rw [← List.head?_reverse, hs]
      rfl
    have ha : a ≠ 0 := fun h => hlast (h ▸ hhead)
    rw [List.dropWhile_cons, if_neg (by simpa using ha)]
    rw [← hs, List.reverse_reverse, hdec]

/-- Witness for the amended C8 at the string `"Test"`. -/
theorem C8_text_roundtrip_witness :
    ((∀ c ∈ [84, 101, 115, 116], c ≤ 127) ∧
        ([84, 101, 115, 116] : List ℕ).getLast? ≠ some 0) ∧
      parse_text_type (build_text_type [84, 101, 115, 116])
        = .ok [84, 101, 115, 116] :=
  ⟨⟨by decide, by decide⟩,
    C8_text_roundtrip [84, 101, 115, 116] (by decide) (by decide)⟩

/-- C7 counterexample: the gamma-1.0 curve (single entry 256) encodes
to 16 bytes, not 12 as the claim states (the claim's own enumeration —
4 signature + 4 reserved + 4 count + 2 value + 2 pad — already sums to
16). -/
theorem C7_counterexample :
    (build_trc_bytes [256]).length = 16 ∧ (16 : ℕ) ≠ 12 := by
  constructor
  · rfl
  · decide

/-- C7 amended: encoding the gamma tone curve with single entry 256
produces exactly 16 bytes: the `curv` signature, 4 reserved zero bytes,
big-endian uint32 count 1, the big-endian 16-bit value 0x0100, and two
zero pad bytes. -/
theorem C7_gamma_curv_bytes :
    build_trc_bytes [256]
      = [99, 117, 114, 118, 0, 0, 0, 0, 0, 0, 0, 1, 1, 0, 0, 0] := by
  rfl

theorem setRecSize_length (data : List ℕ) (v : ℕ) (h16 : 16 ≤ data.length) :
    (setRecSize data v).length = data.length := by
  simp [setRecSize, be32]
  omega

theorem setRecSize_take12 (data : List ℕ) (v : ℕ) (h16 : 16 ≤ data.length) :
    (setRecSize data v).take 12 = data.take 12 := by
  unfold setRecSize
  rw [List.append_assoc]
  exact List.take_left' (by simp; omega)

theorem setRecSize_drop16 (data : List ℕ) (v : ℕ) (h16 : 16 ≤ data.length) :
    (setRecSize data v).drop 16 = data.drop 16 := by
  unfold setRecSize
  exact List.drop_left' (by simp [be32]; omega)

theorem setRecSize_drop_ge (data : List ℕ) (v j : ℕ) (h16 : 16 ≤ data.length)
    (hj : 16 ≤ j) : (setRecSize data v).drop j = data.drop j := by
  have h1 : (setRecSize data v).drop j
      = ((setRecSize data v).drop 16).drop (j - 16) := by
    rw [List.drop_drop]
    congr 1
    omega
  have h2 : data.drop j = (data.drop 16).drop (j - 16) := by
    rw [List.drop_drop]
    congr 1
    omega
  rw [h1, h2, setRecSize_drop16 data v h16]

theorem setRecSize_getD_ge (data : List ℕ) (v j : ℕ) (h16 : 16 ≤ data.length)
    (hj : 16 ≤ j) : (setRecSize data v).getD j 0 = data.getD j 0 := by
  rw [List.getD_eq_getElem?_getD, List.getD_eq_getElem?_getD]
  have h1 : (setRecSize data v)[j]? = ((setRecSize data v).drop 16)[j - 16]? := by
    rw [List.getElem?_drop]
    congr 1
    omega
  have h2 : data[j]? = (data.drop 16)[j - 16]? := by
    rw [List.getElem?_drop]
    congr 1
    omega
  rw [h1, h2, setRecSize_drop16 data v h16]

theorem setRecSize_getD_lt (data : List ℕ) (v j : ℕ) (h16 : 16 ≤ data.length)
    (hj : j < 12) : (setRecSize data v).getD j 0 = data.getD j 0 := by
  rw [List.getD_eq_getElem?_getD, List.getD_eq_getElem?_getD]
  have h1 : (setRecSize data v)[j]? = ((setRecSize data v).take 12)[j]? := by
    rw [List.getElem?_take, if_pos hj]
  have h2 : data[j]? = (data.take 12)[j]? := by
    rw [List.getElem?_take, if_pos hj]
  rw [h1, h2, setRecSize_take12 data v h16]

theorem setRecSize_be32At_ge (data : List ℕ) (v j : ℕ)
    (h16 : 16 ≤ data.length) (hj : 16 ≤ j) :
    be32At (setRecSize data v) j = be32At data j := by
  unfold be32At
  rw [setRecSize_getD_ge data v j h16 hj,
    setRecSize_getD_ge data v (j+1) h16 (by omega),
    setRecSize_getD_ge data v (j+2) h16 (by omega),
    setRecSize_getD_ge data v (j+3) h16 (by omega)]

theorem setRecSize_be32At_8 (data : List ℕ) (v : ℕ) (h16 : 16 ≤ data.length) :
    be32At (setRecSize data v) 8 = be32At data 8 := by
  unfold be32At
  rw [setRecSize_getD_lt data v 8 h16 (by omega),
    setRecSize_getD_lt data v 9 h16 (by omega),
    setRecSize_getD_lt data v 10 h16 (by omega),
    setRecSize_getD_lt data v 11 h16 (by omega)]

theorem setRecSize_take4 (data : List ℕ) (v : ℕ) (h16 : 16 ≤ data.length) :
    (setRecSize data v).take 4 = data.take 4 := by
  have h1 : (setRecSize data v).take 4 = ((setRecSize data v).take 12).take 4 := by
    rw [List.take_take]
    norm_num
  have h2 : data.take 4 = (data.take 12).take 4 := by
    rw [List.take_take]
    norm_num
  rw [h1, h2, setRecSize_take12 data v h16]

/-- Bytes 12–15 of `setRecSize data 12` read back as the uint32 `12`. -/
theorem setRecSize_be32At_12 (data : List ℕ) (h16 : 16 ≤ data.length) :
    be32At (setRecSize data 12) 12 = 12 := by
  have hlen : (data.take 12).length = 12 := by simp; omega
  have hread : ∀ k, k < 4 → (setRecSize data 12)[12 + k]? = (be32 12)[k]? := by
    intro k hk
    unfold setRecSize
    rw [List.append_assoc]
    rw [List.getElem?_append_right (by omega)]
    rw [hlen, show 12 + k - 12 = k from by omega, List.getElem?_append]
    rw [if_pos (by simp [be32]; omega)]
  have h0 := hread 0 (by omega)
  have h1 := hread 1 (by omega)
  have h2 := hread 2 (by omega)
  have h3 := hread 3 (by omega)
  norm_num at h0 h1 h2 h3
  unfold be32At
  rw [List.getD_eq_getElem?_getD, List.getD_eq_getElem?_getD,
    List.getD_eq_getElem?_getD, List.getD_eq_getElem?_getD]
  norm_num
  rw [h0, h1, h2, h3]
  rfl

/-- Two lists agreeing on their first 12 elements produce the same
window slice whenever the window lies inside those 12 elements. -/
theorem take_window_congr (l₁ l₂ : List ℕ) (off len : ℕ)
    (h : l₁.take 12 = l₂.take 12) (hol : off + len ≤ 12) :
    (l₁.drop off).take len = (l₂.drop off).take len := by
  have e : ∀ l : List ℕ, (l.drop off).take len = ((l.take 12).drop off).take len := by
    intro l
    rw [List.drop_take, List.take_take]
    congr 1
    omega
  rw [e l₁, e l₂, h]

/-- Core of the amended C9: when the record-size field is rewritten to
12, the 12-stride record loop reads back identical records as long as
no record's string window touches bytes 12–15. -/
theorem mlucRecords_setRecSize (data : List ℕ) (h16 : 16 ≤ data.length)
    (n : ℕ) : ∀ i : ℕ,
    (∀ m, i ≤ m → m < i + n →
      be32At data (16 + m * 12 + 8) + be32At data (16 + m * 12 + 4) ≤ 12 ∨
        16 ≤ be32At data (16 + m * 12 + 8) ∨
        be32At data (16 + m * 12 + 4) = 0) →
    mlucRecords (setRecSize data 12) 12 n i = mlucRecords data 12 n i := by
  induction n with
  | zero => intro i _; rfl
  | succ n ih =>
    intro i hdisj
    have hlen := setRecSize_length data 12 h16
    have hb4 : be32At (setRecSize data 12) (16 + i * 12 + 4)
        = be32At data (16 + i * 12 + 4) :=
      setRecSize_be32At_ge data 12 _ h16 (by omega)
    have hb8 : be32At (setRecSize data 12) (16 + i * 12 + 8)
        = be32At data (16 + i * 12 + 8) :=
      setRecSize_be32At_ge data 12 _ h16 (by omega)
    have hdropb : (setRecSize data 12).drop (16 + i * 12)
        = data.drop (16 + i * 12) :=
      setRecSize_drop_ge data 12 _ h16 (by omega)
    have hdropb2 : (setRecSize data 12).drop (16 + i * 12 + 2)
        = data.drop (16 + i * 12 + 2) :=
      setRecSize_drop_ge data 12 _ h16 (by omega)
    have htext : ((setRecSize data 12).drop
          (be32At data (16 + i * 12 + 8))).take
            (be32At data (16 + i * 12 + 4))
        = (data.drop (be32At data (16 + i * 12 + 8))).take
            (be32At data (16 + i * 12 + 4)) := by
      rcases hdisj i (le_refl i) (by omega) with hd | hd | hd
      · exact take_window_congr _ _ _ _ (setRecSize_take12 data 12 h16) hd
      · rw [setRecSize_drop_ge data 12 _ h16 hd]
      · rw [hd]
        simp
    have hrest : mlucRecords (setRecSize data 12) 12 n (i + 1)
        = mlucRecords data 12 n (i + 1) :=
      ih (i + 1) (fun m hm1 hm2 => hdisj m (by omega) (by omega))
    show mlucRecords (setRecSize data 12) 12 (n + 1) i
      = mlucRecords data 12 (n + 1) i
    rw [mlucRecords, mlucRecords]
    simp only [hlen, hb4, hb8, hdropb, hdropb2, htext, hrest]

/-- C9 counterexample: a 28-byte `mluc` buffer whose record-size field
is 0 and whose single record's string window (offset 12, length 4)
covers the record-size field itself.  Rewriting the field to 12 changes
the parsed record text, so a record-size field of 0 does not behave
identically to 12. -/
theorem C9_counterexample :
    be32At [109, 108, 117, 99, 0, 0, 0, 0, 0, 0, 0, 1, 0, 0, 0, 0,
        101, 110, 85, 83, 0, 0, 0, 4, 0, 0, 0, 12] 12 = 0 ∧
    setRecSize [109, 108, 117, 99, 0, 0, 0, 0, 0, 0, 0, 1, 0, 0, 0, 0,
        101, 110, 85, 83, 0, 0, 0, 4, 0, 0, 0, 12] 12
      = [109, 108, 117, 99, 0, 0, 0, 0, 0, 0, 0, 1, 0, 0, 0, 12,
        101, 110, 85, 83, 0, 0, 0, 4, 0, 0, 0, 12] ∧
    parse_mluc [109, 108, 117, 99, 0, 0, 0, 0, 0, 0, 0, 1, 0, 0, 0, 0,
        101, 110, 85, 83, 0, 0, 0, 4, 0, 0, 0, 12]
      ≠ parse_mluc [109, 108, 117, 99, 0, 0, 0, 0, 0, 0, 0, 1, 0, 0, 0, 12,
        101, 110, 85, 83, 0, 0, 0, 4, 0, 0, 0, 12] := by
  refine ⟨rfl, rfl, ?_⟩
  have h0 : parse_mluc [109, 108, 117, 99, 0, 0, 0, 0, 0, 0, 0, 1, 0, 0, 0, 0,
      101, 110, 85, 83, 0, 0, 0, 4, 0, 0, 0, 12]
      = .ok [⟨[101, 110], [85, 83], 4, 12, [0, 0, 0, 0]⟩] := rfl
  have h12 : parse_mluc [109, 108, 117, 99, 0, 0, 0, 0, 0, 0, 0, 1, 0, 0, 0, 12,
      101, 110, 85, 83, 0, 0, 0, 4, 0, 0, 0, 12]
      = .ok [⟨[101, 110], [85, 83], 4, 12, [0, 0, 0, 12]⟩] := rfl
  rw [h0, h12]
  intro h
  simp only [Except.ok.injEq, List.cons.injEq, MlucRecord.mk.injEq] at h
  exact absurd h.1.2.2.2.2 (by decide)

/-- C9 amended: a record-size field below 12 is silently clamped to 12
and the record table is read at a 12-byte stride; the parse behaves
identically to a record-size field of 12 provided no record's string
window `[offset, offset+length)` overlaps the record-size field bytes
12–15 (those bytes keep their original value and may be re-read as
string content). -/
theorem C9_recsize_clamped (data : List ℕ) (h16 : 16 ≤ data.length)
    (hf : be32At data 12 < 12)
    (hdisj : ∀ m, m < be32At data 8 →
      be32At data (16 + m * 12 + 8) + be32At data (16 + m * 12 + 4) ≤ 12 ∨
        16 ≤ be32At data (16 + m * 12 + 8) ∨
        be32At data (16 + m * 12 + 4) = 0) :
    parse_mluc data = parse_mluc (setRecSize data 12) := by
  have hnot16 : ¬ (data.length < 16) := by omega
  unfold parse_mluc
  rw [setRecSize_length data 12 h16, setRecSize_take4 data 12 h16,
    setRecSize_be32At_8 data 12 h16, setRecSize_be32At_12 data h16]
  rw [if_neg hnot16, if_neg hnot16]
  by_cases hsig : data.take 4 ≠ [109, 108, 117, 99]
  · rw [if_pos hsig, if_pos hsig]
  · rw [if_neg hsig, if_neg hsig]
    dsimp only
    rw [if_neg (show ¬ 12 ≤ be32At data 12 by omega), if_pos (le_refl 12)]
    exact (mlucRecords_setRecSize data h16 (be32At data 8) 0
      (fun m hm1 hm2 => hdisj m (by omega))).symm

/-- Witness for the amended C9: record-size field 0, one record whose
string window starts at offset 16 (clear of bytes 12–15). -/
theorem C9_recsize_clamped_witness :
    parse_mluc [109, 108, 117, 99, 0, 0, 0, 0, 0, 0, 0, 1, 0, 0, 0, 0,
        101, 110, 85, 83, 0, 0, 0, 4, 0, 0, 0, 16]
      = parse_mluc (setRecSize [109, 108, 117, 99, 0, 0, 0, 0, 0, 0, 0, 1,
        0, 0, 0, 0, 101, 110, 85, 83, 0, 0, 0, 4, 0, 0, 0, 16] 12) :=
  C9_recsize_clamped
    [109, 108, 117, 99, 0, 0, 0, 0, 0, 0, 0, 1, 0, 0, 0, 0,
      101, 110, 85, 83, 0, 0, 0, 4, 0, 0, 0, 16]
    (by decide) (by decide) (by decide)

theorem hexVal?_hexDigitChar (d : ℕ) (hd : d < 16) :
    hexVal? (hexDigitChar d) = some d := by
  interval_cases d <;> decide

theorem isPySpace_hexDigitChar (d : ℕ) (hd : d < 16) :
    isPySpace (hexDigitChar d) = false := by
  interval_cases d <;> decide

theorem hex_not_space (c : Char) (h : (hexVal? c).isSome) :
    isPySpace c = false := by
  by_contra hc
  rw [Bool.not_eq_false] at hc
  unfold isPySpace at hc
  rw [Bool.or_eq_true, Bool.or_eq_true, Bool.or_eq_true, Bool.or_eq_true,
    Bool.or_eq_true] at hc
  rcases hc with ((((h1 | h1) | h1) | h1) | h1) | h1 <;> rw [beq_iff_eq] at h1 <;>
    subst h1 <;> exact absurd h (by decide)

/-- `bytes.fromhex` succeeds on an even-length string of plain hex
digits, producing one byte per digit pair. -/
theorem pyFromhex_hex_even : ∀ (s : List Char),
    (∀ c ∈ s, (hexVal? c).isSome) → s.length % 2 = 0 →
    ∃ b, pyFromhex s = some b ∧ 2 * b.length = s.length
  | [], _, _ => ⟨[], rfl, rfl⟩
  | [c], _, hlen => absurd hlen (by simp)
  | c1 :: c2 :: rest, hall, hlen => by
    have h1 : (hexVal? c1).isSome := hall c1 (by simp)
    have h2 : (hexVal? c2).isSome := hall c2 (by simp)
    obtain ⟨v1, hv1⟩ := Option.isSome_iff_exists.mp h1
    obtain ⟨v2, hv2⟩ := Option.isSome_iff_exists.mp h2
    obtain ⟨b, hb, hblen⟩ := pyFromhex_hex_even rest
      (fun c hc => hall c (by simp [hc]))
      (by simp at hlen ⊢; omega)
    refine ⟨(16 * v1 + v2) :: b, ?_, by simp; omega⟩
    simp [pyFromhex, hex_not_space c1 h1, hv1, hv2, hb]

theorem pyFromhex_natToHexChars_4 (v : ℕ) :
    pyFromhex (natToHexChars v 4) = some (be32 v) := by
  have hrange : natToHexChars v 4
      = [hexDigitChar (v / 268435456 % 16), hexDigitChar (v / 16777216 % 16),
         hexDigitChar (v / 1048576 % 16), hexDigitChar (v / 65536 % 16),
         hexDigitChar (v / 4096 % 16), hexDigitChar (v / 256 % 16),
         hexDigitChar (v / 16 % 16), hexDigitChar (v / 1 % 16)] := by
    unfold natToHexChars
    norm_num [natHexDigits]
  have hm : ∀ w : ℕ, w % 16 < 16 := fun w => Nat.mod_lt _ (by norm_num)
  rw [hrange]
  simp only [pyFromhex, isPySpace_hexDigitChar _ (hm _),
    hexVal?_hexDigitChar _ (hm _), Bool.false_eq_true, if_false,
    Option.map_some']
  unfold be32
  norm_num
  refine ⟨by omega, by omega, by omega, by omega⟩

theorem natToHexChars_length (v L : ℕ) :
    (natToHexChars v L).length = 2 * L := by
  unfold natToHexChars
  rw [List.length_map]
  induction (2 * L) with
  | zero => rfl
  | succ n ih => simp [natHexDigits, ih]

theorem natHexDigits_lt (v : ℕ) : ∀ (n : ℕ), ∀ x ∈ natHexDigits v n, x < 16 := by
  intro n
  induction n with
  | zero => intro x hx; simp [natHexDigits] at hx
  | succ m ih =>
    intro x hx
    rcases List.mem_cons.mp hx with h | h
    · subst h
      exact Nat.mod_lt _ (by norm_num)
    · exact ih x h

theorem natToHexChars_hex (v L : ℕ) :
    ∀ c ∈ natToHexChars v L, (hexVal? c).isSome := by
  unfold natToHexChars
  intro c hc
  obtain ⟨d, hd, rfl⟩ := List.mem_map.mp hc
  rw [hexVal?_hexDigitChar d (natHexDigits_lt v (2 * L) d hd)]
  rfl

theorem cleanedOf_eq_of_valid (f : HeaderField) (v : List Char)
    (hval : ∀ c ∈ v, (hexVal? c).isSome) : cleanedOf f v = v := by
  unfold cleanedOf
  split
  · exact List.filter_eq_self.mpr (fun c hc => hval c hc)
  · rfl

theorem fieldBytes_ok_of_valid (hv : String → List Char) (f : HeaderField)
    (hval : fieldValid hv f) :
    ∃ d, pyFromhex ((hv f.key).take (2 * f.length)) = some d ∧
      d.length ≤ f.length ∧
      fieldBytes hv f = .ok (d ++ List.replicate (f.length - d.length) 0) := by
  obtain ⟨heven, hhex⟩ := hval
  have htake_hex : ∀ c ∈ (hv f.key).take (2 * f.length), (hexVal? c).isSome :=
    fun c hc => hhex c (List.take_subset _ _ hc)
  have htake_even : ((hv f.key).take (2 * f.length)).length % 2 = 0 := by
    rw [List.length_take]
    omega
  obtain ⟨d, hd, hdlen⟩ := pyFromhex_hex_even _ htake_hex htake_even
  rw [List.length_take] at hdlen
  refine ⟨d, hd, by omega, ?_⟩
  unfold fieldBytes
  rw [cleanedOf_eq_of_valid f _ hhex, hd]

theorem fieldsBytes_ok_of_valid (hv : String → List Char) :
    ∀ fs : List HeaderField, (∀ f ∈ fs, fieldValid hv f) →
    ∃ segs, fieldsBytes hv fs = .ok segs ∧
      List.Forall₂ (SegSpec hv) segs fs := by
  intro fs
  induction fs with
  | nil => intro _; exact ⟨[], rfl, List.Forall₂.nil⟩
  | cons f rest ih =>
    intro hall
    obtain ⟨d, hd, hdle, hfb⟩ := fieldBytes_ok_of_valid hv f (hall f (by simp))
    obtain ⟨segs, hsegs, hforall⟩ := ih (fun g hg => hall g (by simp [hg]))
    refine ⟨(d ++ List.replicate (f.length - d.length) 0) :: segs, ?_, ?_⟩
    · simp [fieldsBytes, hfb, hsegs]
    · exact List.Forall₂.cons ⟨by simp; omega, d, hd, rfl⟩ hforall

theorem forall₂_segs_length (hv : String → List Char) :
    ∀ {segs : List (List ℕ)} {fs : List HeaderField},
    List.Forall₂ (SegSpec hv) segs fs →
    segs.map List.length = fs.map (·.length) := by
  intro segs fs h
  induction h with
  | nil => rfl
  | cons h1 _ ih => simp [h1.1, ih]

theorem forall₂_decomp (hv : String → List Char) :
    ∀ {pre : List HeaderField} {segs : List (List ℕ)} {f : HeaderField}
      {post : List HeaderField},
    List.Forall₂ (SegSpec hv) segs (pre ++ f :: post) →
    ∃ s1 seg s2, segs = s1 ++ seg :: s2 ∧
      List.Forall₂ (SegSpec hv) s1 pre ∧ SegSpec hv seg f ∧
      List.Forall₂ (SegSpec hv) s2 post := by
  intro pre
  induction pre with
  | nil =>
    intro segs f post h
    rw [List.nil_append] at h
    cases h with
    | cons ha ht => exact ⟨[], _, _, rfl, .nil, ha, ht⟩
  | cons g pre' ih =>
    intro segs f post h
    rw [List.cons_append] at h
    cases h with
    | cons ha ht =>
      obtain ⟨s1, seg, s2, rfl, h1, h2, h3⟩ := ih ht
      exact ⟨_ :: s1, seg, s2, rfl, .cons ha h1, h2, h3⟩

theorem flatten_extract (s1 : List (List ℕ)) (seg : List ℕ)
    (s2 : List (List ℕ)) :
    (((s1 ++ seg :: s2).flatten).drop ((s1.map List.length).sum)).take
        seg.length = seg := by
  rw [List.flatten_append, List.flatten_cons]
  rw [List.drop_left' (List.length_flatten s1)]
  exact List.take_left seg s2.flatten

/-- C5 amended: `build_header_bytes` overrides the size field with the
supplied total size (for any size below `2^32`), truncates each field's
supplied hex to the field's byte length and RIGHT-pads short fields
with zero bytes (`bytes.ljust`), and — whenever every supplied value is
an even-length hex-digit string — returns exactly 128 bytes; on any
input it never returns a byte string of another length. -/
theorem C5_header_encode (hv : String → List Char) (totalSize : ℕ)
    (hts : totalSize < 4294967296)
    (hvalid : ∀ f ∈ HEADER_FIELDS, (hv f.key).length % 2 = 0 ∧
      ∀ c ∈ hv f.key, (hexVal? c).isSome) :
    (∀ (hv2 : String → List Char) (t2 : ℕ) (bs2 : List ℕ),
        build_header_bytes hv2 t2 = .ok bs2 → bs2.length = 128) ∧
    ∃ bs, build_header_bytes hv totalSize = .ok bs ∧ bs.length = 128 ∧
      bs.take 4 = be32 totalSize ∧
      ∀ pre f post, HEADER_FIELDS = pre ++ f :: post → f.key ≠ "size" →
        ∃ d, pyFromhex ((hv f.key).take (2 * f.length)) = some d ∧
          (bs.drop ((pre.map (·.length)).sum)).take f.length
            = d ++ List.replicate (f.length - d.length) 0 := by
  constructor
  · intro hv2 t2 bs2 h
    unfold build_header_bytes at h
    split at h
    · exact absurd h (by simp)
    · dsimp only at h
      split at h
      · exact absurd h (by simp)
      · split at h
        · exact absurd h (by simp)
        · rename_i hlen
          simp only [Except.ok.injEq] at h
          subst h
          omega
  · have h2564 : (256 : ℕ) ^ 4 = 4294967296 := by norm_num
    have hsz : int_to_hex totalSize 4 = .ok (natToHexChars totalSize 4) := by
      unfold int_to_hex
      rw [if_neg (by omega)]
    set hv' := fun k => if k = "size" then natToHexChars totalSize 4 else hv k
      with hhv'
    have hvalid' : ∀ f ∈ HEADER_FIELDS, fieldValid hv' f := by
      intro f hf
      by_cases hk : f.key = "size"
      · unfold fieldValid
        have hkey : hv' f.key = natToHexChars totalSize 4 := by
          rw [hhv', hk]
          simp
        rw [hkey]
        exact ⟨by rw [natToHexChars_length], natToHexChars_hex totalSize 4⟩
      · unfold fieldValid
        have hkey : hv' f.key = hv f.key := by simp [hhv', hk]
        rw [hkey]
        exact hvalid f hf
    obtain ⟨segs, hsegs, hforall⟩ := fieldsBytes_ok_of_valid hv' HEADER_FIELDS hvalid'
    have hlens : segs.map List.length = HEADER_FIELDS.map (·.length) :=
      forall₂_segs_length hv' hforall
    have hflatlen : segs.flatten.length = 128 := by
      rw [List.length_flatten, hlens]
      rfl
    have hbuild : build_header_bytes hv totalSize = .ok segs.flatten := by
      unfold build_header_bytes
      rw [hsz]
      dsimp only
      rw [← hhv', hsegs]
      dsimp only
      rw [if_neg (by omega)]
    refine ⟨segs.flatten, hbuild, hflatlen, ?_, ?_⟩
    · cases hforall with
      | cons ha ht =>
        obtain ⟨hlen0, d, hd, hval0⟩ := ha
        have hkey : hv' "size" = natToHexChars totalSize 4 := by
          rw [hhv']
          simp
        rw [show ((⟨"size", 4, "size"⟩ : HeaderField)).key = "size" from rfl,
          hkey] at hd
        rw [List.take_of_length_le (by rw [natToHexChars_length])] at hd
        rw [pyFromhex_natToHexChars_4] at hd
        injection hd with hdval
        subst hdval
        rw [List.flatten_cons, hval0]
        have hseg0 : be32 totalSize ++ List.replicate
            ((⟨"size", 4, "size"⟩ : HeaderField).length - (be32 totalSize).length) 0
            = be32 totalSize := by
          simp [be32]
        rw [hseg0]
        exact List.take_left' rfl
    · intro pre f post hdec hne
      obtain ⟨s1, seg, s2, hsegseq, h1, h2, h3⟩ := forall₂_decomp hv' (hdec ▸ hforall)
      obtain ⟨hlenf, d, hd, hsegval⟩ := h2
      have hkey : hv' f.key = hv f.key := by simp [hhv', hne]
      rw [hkey] at hd
      refine ⟨d, hd, ?_⟩
      subst hsegseq
      have hpre : (s1.map List.length).sum = (pre.map (·.length)).sum := by
        rw [forall₂_segs_length hv' h1]
      rw [← hpre]
      have hext := flatten_extract s1 seg s2
      rw [hlenf] at hext
      rw [hext, hsegval]

set_option maxRecDepth 8000 in
/-- C5 counterexample: with the manufacturer field supplied as the
2-character hex string `"FF"` (shorter than the 4-byte field), the
encoder emits `FF 00 00 00` at the field's position (bytes 48–51) —
the short value is RIGHT-padded, not left-padded as the claim states
(`leftPadSpec 4 [0xFF] = 00 00 00 FF`). -/
theorem C5_counterexample :
    build_header_bytes
        (fun k => if k = "manufacturer" then ['F', 'F'] else []) 812
      = .ok [0, 0, 3, 44, 0, 0, 0, 0, 0, 0, 0, 0, 0, 0, 0, 0, 0, 0, 0, 0,
          0, 0, 0, 0, 0, 0, 0, 0, 0, 0, 0, 0, 0, 0, 0, 0, 0, 0, 0, 0,
          0, 0, 0, 0, 0, 0, 0, 0, 255, 0, 0, 0, 0, 0, 0, 0, 0, 0, 0, 0,
          0, 0, 0, 0, 0, 0, 0, 0, 0, 0, 0, 0, 0, 0, 0, 0, 0, 0, 0, 0,
          0, 0, 0, 0, 0, 0, 0, 0, 0, 0, 0, 0, 0, 0, 0, 0, 0, 0, 0, 0,
          0, 0, 0, 0, 0, 0, 0, 0, 0, 0, 0, 0, 0, 0, 0, 0, 0, 0, 0, 0,
          0, 0, 0, 0, 0, 0, 0, 0] ∧
    (([0, 0, 3, 44, 0, 0, 0, 0, 0, 0, 0, 0, 0, 0, 0, 0, 0, 0, 0, 0,
        0, 0, 0, 0, 0, 0, 0, 0, 0, 0, 0, 0, 0, 0, 0, 0, 0, 0, 0, 0,
        0, 0, 0, 0, 0, 0, 0, 0, 255, 0, 0, 0, 0, 0, 0, 0, 0, 0, 0, 0,
        0, 0, 0, 0, 0, 0, 0, 0, 0, 0, 0, 0, 0, 0, 0, 0, 0, 0, 0, 0,
        0, 0, 0, 0, 0, 0, 0, 0, 0, 0, 0, 0, 0, 0, 0, 0, 0, 0, 0, 0,
        0, 0, 0, 0, 0, 0, 0, 0, 0, 0, 0, 0, 0, 0, 0, 0, 0, 0, 0, 0,
        0, 0, 0, 0, 0, 0, 0, 0] : List ℕ).drop 48).take 4 = [255, 0, 0, 0] ∧
    ([255, 0, 0, 0] : List ℕ) ≠ leftPadSpec 4 [255] := by
  refine ⟨rfl, rfl, ?_⟩
  decide

/-- Witness for the amended C5: the all-empty header map and total
size 812. -/
theorem C5_header_encode_witness :
    (∀ (hv2 : String → List Char) (t2 : ℕ) (bs2 : List ℕ),
        build_header_bytes hv2 t2 = .ok bs2 → bs2.length = 128) ∧
    ∃ bs, build_header_bytes (fun _ => []) 812 = .ok bs ∧ bs.length = 128 ∧
      bs.take 4 = be32 812 ∧
      ∀ pre f post, HEADER_FIELDS = pre ++ f :: post → f.key ≠ "size" →
        ∃ d, pyFromhex (((fun _ => ([] : List Char)) f.key).take (2 * f.length))
            = some d ∧
          (bs.drop ((pre.map (·.length)).sum)).take f.length
            = d ++ List.replicate (f.length - d.length) 0 :=
  C5_header_encode (fun _ => []) 812 (by norm_num)
    (fun f hf => ⟨rfl, by simp⟩)

theorem lookup_cons_ne {α β : Type} [BEq α] [LawfulBEq α]
    (l : List (α × β)) (a k : α) (b : β) (h : a ≠ k) :
    ((k, b) :: l).lookup a = l.lookup a := by
  rw [List.lookup_cons]
  rw [show (a == k) = false from beq_eq_false_iff_ne.mpr h]

theorem lookup_cons_self {α β : Type} [BEq α] [LawfulBEq α]
    (l : List (α × β)) (a : α) (b : β) :
    ((a, b) :: l).lookup a = some b := by
  rw [List.lookup_cons]
  rw [show (a == a) = true from beq_self_eq_true a]

theorem lookup_mem : ∀ (offsets : List (List ℕ × ℕ)) (d : List ℕ) (o : ℕ),
    offsets.lookup d = some o → ∃ p ∈ offsets, p.2 = o := by
  intro offsets
  induction offsets with
  | nil => intro d o h; exact absurd h (by simp [List.lookup])
  | cons p rest ih =>
    intro d o h
    obtain ⟨k, v⟩ := p
    rw [List.lookup_cons] at h
    cases hbeq : d == k with
    | true =>
      rw [hbeq] at h
      simp at h
      exact ⟨(k, v), by simp, h⟩
    | false =>
      rw [hbeq] at h
      simp at h
      obtain ⟨q, hq, ho⟩ := ih d o h
      exact ⟨q, by simp [hq], ho⟩

theorem lookup_insert_stable (offsets : List (List ℕ × ℕ))
    (d newKey : List ℕ) (o c : ℕ) (h : offsets.lookup d = some o)
    (hnew : offsets.lookup newKey = none) :
    ((newKey, c) :: offsets).lookup d = some o := by
  have hne : d ≠ newKey := by
    intro he
    rw [he, hnew] at h
    cases h
  rw [lookup_cons_ne offsets d newKey c hne]
  exact h

/-- Inversion of one `_layout_tags` loop iteration. -/
theorem layoutGo_cons_inv (t : TagEntry) (rest : List TagEntry)
    (offsets : List (List ℕ × ℕ)) (c : ℕ)
    (lay : List (TagEntry × ℕ × ℕ)) (blocks : List ℕ) (tot : ℕ)
    (h : layoutGo (t :: rest) offsets c = .ok (lay, blocks, tot)) :
    ∃ data, t.data_bytes = .ok data ∧
      ((∃ off, offsets.lookup data = some off ∧
          ∃ lay' blocks', layoutGo rest offsets c = .ok (lay', blocks', tot) ∧
            lay = (t, off, data.length) :: lay' ∧ blocks = blocks') ∨
       (offsets.lookup data = none ∧
          ∃ lay' blocks',
            layoutGo rest ((data, c) :: offsets)
              (c + data.length + (4 - (c + data.length) % 4) % 4)
              = .ok (lay', blocks', tot) ∧
            lay = (t, c, data.length) :: lay' ∧
            blocks = data ++ List.replicate ((4 - (c + data.length) % 4) % 4) 0
              ++ blocks')) := by
  unfold layoutGo at h
  cases hdb : t.data_bytes with
  | error e => rw [hdb] at h; cases h
  | ok data =>
    rw [hdb] at h
    dsimp only at h
    refine ⟨data, rfl, ?_⟩
    cases hlk : offsets.lookup data with
    | some off =>
      rw [hlk] at h
      left
      cases hrec : layoutGo rest offsets c with
      | error e => rw [hrec] at h; cases h
      | ok triple =>
        obtain ⟨lay', blocks', tot'⟩ := triple
        rw [hrec] at h
        simp only [Except.ok.injEq, Prod.mk.injEq] at h
        obtain ⟨hlay, hblocks, htot⟩ := h
        subst htot
        exact ⟨off, rfl, lay', blocks', rfl, hlay.symm, hblocks.symm⟩
    | none =>
      rw [hlk] at h
      right
      cases hrec : layoutGo rest ((data, c) :: offsets)
          (c + data.length + (4 - (c + data.length) % 4) % 4) with
      | error e => rw [hrec] at h; cases h
      | ok triple =>
        obtain ⟨lay', blocks', tot'⟩ := triple
        rw [hrec] at h
        simp only [Except.ok.injEq, Prod.mk.injEq] at h
        obtain ⟨hlay, hblocks, htot⟩ := h
        subst htot
        exact ⟨rfl, lay', blocks', rfl, hlay.symm, hblocks.symm⟩

theorem ndGo_eq : ∀ (tags : List TagEntry) (c : ℕ), c % 4 = 0 →
    layoutNoDedupGo tags c
      = match paddedSizes tags with
        | .error e => .error e
        | .ok l => .ok (c + l.sum) := by
  intro tags
  induction tags with
  | nil => intro c hc; simp [layoutNoDedupGo, paddedSizes]
  | cons t rest ih =>
    intro c hc
    unfold layoutNoDedupGo paddedSizes
    cases hdb : t.data_bytes with
    | error e => rfl
    | ok data =>
      dsimp only
      have hcur : c + data.length + (4 - (c + data.length) % 4) % 4
          = c + roundUp4 data.length := by
        unfold roundUp4
        omega
      have halign : (c + roundUp4 data.length) % 4 = 0 := by
        unfold roundUp4
        omega
      rw [hcur, ih _ halign]
      cases hps : paddedSizes rest with
      | error e => rfl
      | ok l =>
        dsimp only
        rw [List.sum_cons]
        congr 1
        omega

theorem layoutGo_le : ∀ (tags : List TagEntry)
    (offsets : List (List ℕ × ℕ)) (c : ℕ), c % 4 = 0 →
    ∀ (lay : List (TagEntry × ℕ × ℕ)) (blocks : List ℕ) (tot : ℕ),
    layoutGo tags offsets c = .ok (lay, blocks, tot) →
    ∃ l, paddedSizes tags = .ok l ∧ tot ≤ c + l.sum := by
  intro tags
  induction tags with
  | nil =>
    intro offsets c hc lay blocks tot h
    unfold layoutGo at h
    simp only [Except.ok.injEq, Prod.mk.injEq] at h
    exact ⟨[], rfl, by omega⟩
  | cons t rest ih =>
    intro offsets c hc lay blocks tot h
    obtain ⟨data, hdb, hcase⟩ := layoutGo_cons_inv t rest offsets c lay blocks tot h
    rcases hcase with ⟨off, hlk, lay', blocks', hrec, -, -⟩ |
      ⟨hlk, lay', blocks', hrec, -, -⟩
    · obtain ⟨l, hps, hle⟩ := ih offsets c hc lay' blocks' tot hrec
      refine ⟨roundUp4 data.length :: l, ?_, ?_⟩
      · unfold paddedSizes
        rw [hdb, hps]
      · rw [List.sum_cons]
        have : 0 ≤ roundUp4 data.length := Nat.zero_le _
        omega
    · have halign : (c + data.length + (4 - (c + data.length) % 4) % 4) % 4 = 0 := by
        omega
      obtain ⟨l, hps, hle⟩ := ih _ _ halign lay' blocks' tot hrec
      refine ⟨roundUp4 data.length :: l, ?_, ?_⟩
      · unfold paddedSizes
        rw [hdb, hps]
      · rw [List.sum_cons]
        unfold roundUp4 at *
        omega

theorem layoutGo_lt_hit : ∀ (tags : List TagEntry)
    (offsets : List (List ℕ × ℕ)) (c : ℕ), c % 4 = 0 →
    ∀ (lay : List (TagEntry × ℕ × ℕ)) (blocks : List ℕ) (tot : ℕ),
    layoutGo tags offsets c = .ok (lay, blocks, tot) →
    (∃ (k : ℕ) (hk : k < tags.length) (d : List ℕ),
      (tags.get ⟨k, hk⟩).data_bytes = .ok d ∧ d ≠ [] ∧
        (offsets.lookup d).isSome) →
    ∃ l, paddedSizes tags = .ok l ∧ tot < c + l.sum := by
  intro tags
  induction tags with
  | nil =>
    intro offsets c hc lay blocks tot h hwit
    obtain ⟨k, hk, -⟩ := hwit
    exact absurd hk (by simp)
  | cons t rest ih =>
    intro offsets c hc lay blocks tot h hwit
    obtain ⟨data, hdb, hcase⟩ := layoutGo_cons_inv t rest offsets c lay blocks tot h
    obtain ⟨k, hk, d, hkd, hdne, hlkd⟩ := hwit
    rcases hcase with ⟨off, hlk, lay', blocks', hrec, -, -⟩ |
      ⟨hlk, lay', blocks', hrec, -, -⟩
    · cases k with
      | zero =>
        have hdd : data = d := by
          have h0 : t.data_bytes = .ok d := hkd
          rw [hdb] at h0
          injection h0
        subst hdd
        obtain ⟨l, hps, hle⟩ := layoutGo_le rest offsets c hc lay' blocks' tot hrec
        refine ⟨roundUp4 data.length :: l, ?_, ?_⟩
        · unfold paddedSizes
          rw [hdb, hps]
        · rw [List.sum_cons]
          have hpos : 0 < data.length := List.length_pos.mpr hdne
          unfold roundUp4
          omega
      | succ k' =>
        obtain ⟨l, hps, hle⟩ := ih offsets c hc lay' blocks' tot hrec
          ⟨k', by simpa using hk, d, hkd, hdne, hlkd⟩
        refine ⟨roundUp4 data.length :: l, ?_, ?_⟩
        · unfold paddedSizes
          rw [hdb, hps]
        · rw [List.sum_cons]
          omega
    · cases k with
      | zero =>
        have hdd : data = d := by
          have h0 : t.data_bytes = .ok d := hkd
          rw [hdb] at h0
          injection h0
        subst hdd
        rw [hlk] at hlkd
        exact absurd hlkd (by simp)
      | succ k' =>
        have halign : (c + data.length + (4 - (c + data.length) % 4) % 4) % 4 = 0 := by
          omega
        have hstab : ((((data, c) :: offsets).lookup d)).isSome := by
          by_cases hdd : d = data
          · subst hdd
            rw [lookup_cons_self]
            rfl
          · rw [lookup_cons_ne offsets d data c hdd]
            exact hlkd
        obtain ⟨l, hps, hle⟩ := ih _ _ halign lay' blocks' tot hrec
          ⟨k', by simpa using hk, d, hkd, hdne, hstab⟩
        refine ⟨roundUp4 data.length :: l, ?_, ?_⟩
        · unfold paddedSizes
          rw [hdb, hps]
        · rw [List.sum_cons]
          unfold roundUp4 at *
          omega

theorem layoutGo_pair_lt : ∀ (tags : List TagEntry)
    (offsets : List (List ℕ × ℕ)) (c : ℕ), c % 4 = 0 →
    ∀ (lay : List (TagEntry × ℕ × ℕ)) (blocks : List ℕ) (tot : ℕ),
    layoutGo tags offsets c = .ok (lay, blocks, tot) →
    (∃ (i j : ℕ) (hi : i < tags.length) (hj : j < tags.length) (d : List ℕ),
      i < j ∧ (tags.get ⟨i, hi⟩).data_bytes = .ok d ∧
        (tags.get ⟨j, hj⟩).data_bytes = .ok d ∧ d ≠ []) →
    ∃ l, paddedSizes tags = .ok l ∧ tot < c + l.sum := by
  intro tags
  induction tags with
  | nil =>
    intro offsets c hc lay blocks tot h hwit
    obtain ⟨i, j, hi, -⟩ := hwit
    exact absurd hi (by simp)
  | cons t rest ih =>
    intro offsets c hc lay blocks tot h hwit
    obtain ⟨data, hdb, hcase⟩ := layoutGo_cons_inv t rest offsets c lay blocks tot h
    obtain ⟨i, j, hi, hj, d, hij, hdi, hdj, hdne⟩ := hwit
    rcases hcase with ⟨off, hlk, lay', blocks', hrec, -, -⟩ |
      ⟨hlk, lay', blocks', hrec, -, -⟩
    · cases i with
      | zero =>
        have hdd : data = d := by
          have h0 : t.data_bytes = .ok d := hdi
          rw [hdb] at h0
          injection h0
        subst hdd
        obtain ⟨j', rfl⟩ : ∃ j', j = j' + 1 := ⟨j - 1, by omega⟩
        obtain ⟨l, hps, hle⟩ := layoutGo_lt_hit rest offsets c hc lay' blocks' tot hrec
          ⟨j', by simpa using hj, data, hdj, hdne, by rw [hlk]; rfl⟩
        refine ⟨roundUp4 data.length :: l, ?_, ?_⟩
        · unfold paddedSizes
          rw [hdb, hps]
        · rw [List.sum_cons]
          omega
      | succ i' =>
        obtain ⟨j', rfl⟩ : ∃ j', j = j' + 1 := ⟨j - 1, by omega⟩
        obtain ⟨l, hps, hle⟩ := ih offsets c hc lay' blocks' tot hrec
          ⟨i', j', by simpa using hi, by simpa using hj, d, by omega, hdi, hdj, hdne⟩
        refine ⟨roundUp4 data.length :: l, ?_, ?_⟩
        · unfold paddedSizes
          rw [hdb, hps]
        · rw [List.sum_cons]
          omega
    · have halign : (c + data.length + (4 - (c + data.length) % 4) % 4) % 4 = 0 := by
        omega
      cases i with
      | zero =>
        have hdd : data = d := by
          have h0 : t.data_bytes = .ok d := hdi
          rw [hdb] at h0
          injection h0
        subst hdd
        obtain ⟨j', rfl⟩ : ∃ j', j = j' + 1 := ⟨j - 1, by omega⟩
        obtain ⟨l, hps, hle⟩ := layoutGo_lt_hit rest _ _ halign lay' blocks' tot hrec
          ⟨j', by simpa using hj, data, hdj, hdne, by rw [lookup_cons_self]; rfl⟩
        refine ⟨roundUp4 data.length :: l, ?_, ?_⟩
        · unfold paddedSizes
          rw [hdb, hps]
        · rw [List.sum_cons]
          unfold roundUp4 at *
          omega
      | succ i' =>
        obtain ⟨j', rfl⟩ : ∃ j', j = j' + 1 := ⟨j - 1, by omega⟩
        obtain ⟨l, hps, hle⟩ := ih _ _ halign lay' blocks' tot hrec
          ⟨i', j', by simpa using hi, by simpa using hj, d, by omega, hdi, hdj, hdne⟩
        refine ⟨roundUp4 data.length :: l, ?_, ?_⟩
        · unfold paddedSizes
          rw [hdb, hps]
        · rw [List.sum_cons]
          unfold roundUp4 at *
          omega

theorem layoutGo_length : ∀ (tags : List TagEntry)
    (offsets : List (List ℕ × ℕ)) (c : ℕ)
    (lay : List (TagEntry × ℕ × ℕ)) (blocks : List ℕ) (tot : ℕ),
    layoutGo tags offsets c = .ok (lay, blocks, tot) →
    lay.length = tags.length := by
  intro tags
  induction tags with
  | nil =>
    intro offsets c lay blocks tot h
    unfold layoutGo at h
    simp only [Except.ok.injEq, Prod.mk.injEq] at h
    rw [← h.1]
    rfl
  | cons t rest ih =>
    intro offsets c lay blocks tot h
    obtain ⟨data, hdb, hcase⟩ := layoutGo_cons_inv t rest offsets c lay blocks tot h
    rcases hcase with ⟨off, hlk, lay', blocks', hrec, hlay, -⟩ |
      ⟨hlk, lay', blocks', hrec, hlay, -⟩ <;>
      rw [hlay] <;> simp [ih _ _ lay' blocks' tot hrec]

theorem layoutGo_agree : ∀ (tags : List TagEntry)
    (offsets : List (List ℕ × ℕ)) (c : ℕ)
    (lay : List (TagEntry × ℕ × ℕ)) (blocks : List ℕ) (tot : ℕ),
    layoutGo tags offsets c = .ok (lay, blocks, tot) →
    ∀ (d : List ℕ) (o : ℕ), offsets.lookup d = some o →
    ∀ (k : ℕ) (hk : k < tags.length),
      (tags.get ⟨k, hk⟩).data_bytes = .ok d →
    (lay.getD k (⟨[], [], 0⟩, 0, 0)).2.1 = o := by
  intro tags
  induction tags with
  | nil =>
    intro offsets c lay blocks tot h d o hdo k hk
    exact absurd hk (by simp)
  | cons t rest ih =>
    intro offsets c lay blocks tot h d o hdo k hk hkd
    obtain ⟨data, hdb, hcase⟩ := layoutGo_cons_inv t rest offsets c lay blocks tot h
    rcases hcase with ⟨off, hlk, lay', blocks', hrec, hlay, -⟩ |
      ⟨hlk, lay', blocks', hrec, hlay, -⟩
    · cases k with
      | zero =>
        have hdd : data = d := by
          have h0 : t.data_bytes = .ok d := hkd
          rw [hdb] at h0
          injection h0
        subst hdd
        rw [hdo] at hlk
        injection hlk with hoff
        rw [hlay]
        simpa using hoff.symm
      | succ k' =>
        rw [hlay]
        simpa using ih offsets c lay' blocks' tot hrec d o hdo k'
          (by simpa using hk) hkd
    · cases k with
      | zero =>
        have hdd : data = d := by
          have h0 : t.data_bytes = .ok d := hkd
          rw [hdb] at h0
          injection h0
        subst hdd
        rw [hdo] at hlk
        cases hlk
      | succ k' =>
        rw [hlay]
        have hdo' : (((data, c) :: offsets).lookup d) = some o :=
          lookup_insert_stable offsets d data o c hdo hlk
        simpa using ih _ _ lay' blocks' tot hrec d o hdo' k'
          (by simpa using hk) hkd

theorem layoutGo_pair_offset : ∀ (tags : List TagEntry)
    (offsets : List (List ℕ × ℕ)) (c : ℕ)
    (lay : List (TagEntry × ℕ × ℕ)) (blocks : List ℕ) (tot : ℕ),
    layoutGo tags offsets c = .ok (lay, blocks, tot) →
    ∀ (i j : ℕ) (hi : i < tags.length) (hj : j < tags.length) (d : List ℕ),
      i < j → (tags.get ⟨i, hi⟩).data_bytes = .ok d →
      (tags.get ⟨j, hj⟩).data_bytes = .ok d →
    (lay.getD i (⟨[], [], 0⟩, 0, 0)).2.1
      = (lay.getD j (⟨[], [], 0⟩, 0, 0)).2.1 := by
  intro tags
  induction tags with
  | nil =>
    intro offsets c lay blocks tot h i j hi
    exact absurd hi (by simp)
  | cons t rest ih =>
    intro offsets c lay blocks tot h i j hi hj d hij hdi hdj
    obtain ⟨data, hdb, hcase⟩ := layoutGo_cons_inv t rest offsets c lay blocks tot h
    rcases hcase with ⟨off, hlk, lay', blocks', hrec, hlay, -⟩ |
      ⟨hlk, lay', blocks', hrec, hlay, -⟩
    · cases i with
      | zero =>
        have hdd : data = d := by
          have h0 : t.data_bytes = .ok d := hdi
          rw [hdb] at h0
          injection h0
        subst hdd
        obtain ⟨j', rfl⟩ : ∃ j', j = j' + 1 := ⟨j - 1, by omega⟩
        have hagree := layoutGo_agree rest offsets c lay' blocks' tot hrec
          data off hlk j' (by simpa using hj) hdj
        rw [hlay]
        simpa using hagree.symm
      | succ i' =>
        obtain ⟨j', rfl⟩ : ∃ j', j = j' + 1 := ⟨j - 1, by omega⟩
        rw [hlay]
        simpa using ih offsets c lay' blocks' tot hrec i' j'
          (by simpa using hi) (by simpa using hj) d (by omega) hdi hdj
    · cases i with
      | zero =>
        have hdd : data = d := by
          have h0 : t.data_bytes = .ok d := hdi
          rw [hdb] at h0
          injection h0
        subst hdd
        obtain ⟨j', rfl⟩ : ∃ j', j = j' + 1 := ⟨j - 1, by omega⟩
        have hagree := layoutGo_agree rest _ _ lay' blocks' tot hrec
          data c (lookup_cons_self offsets data c) j' (by simpa using hj) hdj
        rw [hlay]
        simpa using hagree.symm
      | succ i' =>
        obtain ⟨j', rfl⟩ : ∃ j', j = j' + 1 := ⟨j - 1, by omega⟩
        rw [hlay]
        simpa using ih _ _ lay' blocks' tot hrec i' j'
          (by simpa using hi) (by simpa using hj) d (by omega) hdi hdj

theorem layoutGo_aligned : ∀ (tags : List TagEntry)
    (offsets : List (List ℕ × ℕ)) (c : ℕ), c % 4 = 0 →
    (∀ p ∈ offsets, p.2 % 4 = 0) →
    ∀ (lay : List (TagEntry × ℕ × ℕ)) (blocks : List ℕ) (tot : ℕ),
    layoutGo tags offsets c = .ok (lay, blocks, tot) →
    tot % 4 = 0 ∧ ∀ e ∈ lay, e.2.1 % 4 = 0 := by
  intro tags
  induction tags with
  | nil =>
    intro offsets c hc hoff lay blocks tot h
    unfold layoutGo at h
    simp only [Except.ok.injEq, Prod.mk.injEq] at h
    obtain ⟨hlay, -, htot⟩ := h
    rw [← htot, ← hlay]
    exact ⟨hc, by simp⟩
  | cons t rest ih =>
    intro offsets c hc hoff lay blocks tot h
    obtain ⟨data, hdb, hcase⟩ := layoutGo_cons_inv t rest offsets c lay blocks tot h
    rcases hcase with ⟨off, hlk, lay', blocks', hrec, hlay, -⟩ |
      ⟨hlk, lay', blocks', hrec, hlay, -⟩
    · obtain ⟨htot, hlay'⟩ := ih offsets c hc hoff lay' blocks' tot hrec
      refine ⟨htot, ?_⟩
      rw [hlay]
      intro e he
      rcases List.mem_cons.mp he with he | he
      · subst he
        obtain ⟨p, hp, hpo⟩ := lookup_mem offsets data off hlk
        simpa [← hpo] using hoff p hp
      · exact hlay' e he
    · have halign : (c + data.length + (4 - (c + data.length) % 4) % 4) % 4 = 0 := by
        omega
      have hoff' : ∀ p ∈ ((data, c) :: offsets), p.2 % 4 = 0 := by
        intro p hp
        rcases List.mem_cons.mp hp with hp | hp
        · subst hp
          exact hc
        · exact hoff p hp
      obtain ⟨htot, hlay'⟩ := ih _ _ halign hoff' lay' blocks' tot hrec
      refine ⟨htot, ?_⟩
      rw [hlay]
      intro e he
      rcases List.mem_cons.mp he with he | he
      · subst he
        exact hc
      · exact hlay' e he

theorem layoutGo_blocks_len : ∀ (tags : List TagEntry)
    (offsets : List (List ℕ × ℕ)) (c : ℕ)
    (lay : List (TagEntry × ℕ × ℕ)) (blocks : List ℕ) (tot : ℕ),
    layoutGo tags offsets c = .ok (lay, blocks, tot) →
    c + blocks.length = tot := by
  intro tags
  induction tags with
  | nil =>
    intro offsets c lay blocks tot h
    unfold layoutGo at h
    simp only [Except.ok.injEq, Prod.mk.injEq] at h
    obtain ⟨-, hblocks, htot⟩ := h
    rw [← htot, ← hblocks]
    simp
  | cons t rest ih =>
    intro offsets c lay blocks tot h
    obtain ⟨data, hdb, hcase⟩ := layoutGo_cons_inv t rest offsets c lay blocks tot h
    rcases hcase with ⟨off, hlk, lay', blocks', hrec, -, hblocks⟩ |
      ⟨hlk, lay', blocks', hrec, -, hblocks⟩
    · rw [hblocks]
      exact ih offsets c lay' blocks' tot hrec
    · have := ih _ _ lay' blocks' tot hrec
      rw [hblocks]
      simp only [List.length_append, List.length_replicate]
      omega

/-- C1 counterexample: two tags with byte-identical EMPTY data.  Both
directory entries share offset 156 and the payload is stored "once"
(zero bytes), but the total profile size (156) equals the size with
the payloads stored separately — it is not smaller. -/
theorem C1_counterexample :
    _layout_tags [⟨[119, 116, 112, 116], [], 0⟩, ⟨[100, 101, 115, 99], [], 0⟩]
      = .ok ([(⟨[119, 116, 112, 116], [], 0⟩, 156, 0),
          (⟨[100, 101, 115, 99], [], 0⟩, 156, 0)], [], 156) ∧
    _layout_tags_nodedup
        [⟨[119, 116, 112, 116], [], 0⟩, ⟨[100, 101, 115, 99], [], 0⟩]
      = .ok 156 ∧
    ¬ (156 < 156) :=
  ⟨rfl, rfl, by omega⟩

/-- C1 amended: when a layout succeeds and two tags `i < j` have
byte-identical decoded data `d`, both directory entries carry the same
offset, and the total size never exceeds — and, whenever the shared
payload is nonempty, is strictly smaller than — the size with every
payload stored separately. -/
theorem C1_dedup_shared_offset (tags : List TagEntry) (i j : ℕ)
    (hij : i < j) (hj : j < tags.length) (d : List ℕ)
    (lay : List (TagEntry × ℕ × ℕ)) (blocks : List ℕ) (total : ℕ)
    (hlay : _layout_tags tags = .ok (lay, blocks, total))
    (hdi : (tags.get ⟨i, lt_trans hij hj⟩).data_bytes = .ok d)
    (hdj : (tags.get ⟨j, hj⟩).data_bytes = .ok d) :
    (lay.getD i (⟨[], [], 0⟩, 0, 0)).2.1
      = (lay.getD j (⟨[], [], 0⟩, 0, 0)).2.1 ∧
    ∃ totalND, _layout_tags_nodedup tags = .ok totalND ∧ total ≤ totalND ∧
      (d ≠ [] → total < totalND) := by
  have hbase : (128 + (4 + tags.length * 12)) % 4 = 0 := by omega
  constructor
  · exact layoutGo_pair_offset tags [] _ lay blocks total hlay i j
      (lt_trans hij hj) hj d hij hdi hdj
  · obtain ⟨l, hps, hle⟩ := layoutGo_le tags [] _ hbase lay blocks total hlay
    refine ⟨128 + (4 + tags.length * 12) + l.sum, ?_, hle, ?_⟩
    · unfold _layout_tags_nodedup
      rw [ndGo_eq tags _ hbase, hps]
    · intro hdne
      obtain ⟨l', hps', hlt⟩ := layoutGo_pair_lt tags [] _ hbase lay blocks
        total hlay ⟨i, j, lt_trans hij hj, hj, d, hij, hdi, hdj, hdne⟩
      rw [hps] at hps'
      injection hps' with he
      rw [← he] at hlt
      exact hlt

/-- Witness for the amended C1: two tags with identical 4-byte data
`01 02 03 04` share offset 156; total 160 < 164 (separate storage). -/
theorem C1_dedup_shared_offset_witness :
    (([(⟨[119, 116, 112, 116], ['0', '1', '0', '2', '0', '3', '0', '4'], 0⟩,
          156, 4),
        (⟨[100, 101, 115, 99], ['0', '1', '0', '2', '0', '3', '0', '4'], 0⟩,
          156, 4)] : List (TagEntry × ℕ × ℕ)).getD 0 (⟨[], [], 0⟩, 0, 0)).2.1
      = (([(⟨[119, 116, 112, 116], ['0', '1', '0', '2', '0', '3', '0', '4'], 0⟩,
          156, 4),
        (⟨[100, 101, 115, 99], ['0', '1', '0', '2', '0', '3', '0', '4'], 0⟩,
          156, 4)] : List (TagEntry × ℕ × ℕ)).getD 1 (⟨[], [], 0⟩, 0, 0)).2.1 ∧
    ∃ totalND, _layout_tags_nodedup
        [⟨[119, 116, 112, 116], ['0', '1', '0', '2', '0', '3', '0', '4'], 0⟩,
         ⟨[100, 101, 115, 99], ['0', '1', '0', '2', '0', '3', '0', '4'], 0⟩]
      = .ok totalND ∧ 160 ≤ totalND ∧ (([1, 2, 3, 4] : List ℕ) ≠ [] → 160 < totalND) :=
  C1_dedup_shared_offset
    [⟨[119, 116, 112, 116], ['0', '1', '0', '2', '0', '3', '0', '4'], 0⟩,
     ⟨[100, 101, 115, 99], ['0', '1', '0', '2', '0', '3', '0', '4'], 0⟩]
    0 1 (by omega) (by simp) [1, 2, 3, 4]
    [(⟨[119, 116, 112, 116], ['0', '1', '0', '2', '0', '3', '0', '4'], 0⟩,
        156, 4),
     (⟨[100, 101, 115, 99], ['0', '1', '0', '2', '0', '3', '0', '4'], 0⟩,
        156, 4)]
    [1, 2, 3, 4] 160 (by decide) (by decide) (by decide)

/-- C10: every successful layout has a total size that is a multiple
of 4 and assigns only 4-byte-aligned offsets; the data section length
accounts exactly for the span from the end of the tag table
(`128 + 4 + 12·tagCount`, itself a multiple of 4) to the total, so
every block — including the last — is zero-padded to a 4-byte
boundary. -/
theorem C10_layout_alignment (tags : List TagEntry)
    (lay : List (TagEntry × ℕ × ℕ)) (blocks : List ℕ) (total : ℕ)
    (h : _layout_tags tags = .ok (lay, blocks, total)) :
    total % 4 = 0 ∧ (∀ e ∈ lay, e.2.1 % 4 = 0) ∧
      128 + (4 + tags.length * 12) + blocks.length = total := by
  have hbase : (128 + (4 + tags.length * 12)) % 4 = 0 := by omega
  obtain ⟨htot, hoffs⟩ := layoutGo_aligned tags [] _ hbase (by simp)
    lay blocks total h
  exact ⟨htot, hoffs, layoutGo_blocks_len tags [] _ lay blocks total h⟩

/-- Witness for C10 on a concrete two-tag layout (data 5 bytes, so the
final block is padded from 5 to 8). -/
theorem C10_layout_alignment_witness :
    (152 : ℕ) % 4 = 0 ∧
    (∀ e ∈ ([(⟨[119, 116, 112, 116],
          ['0', '1', '0', '2', '0', '3', '0', '4', '0', '5'], 0⟩, 144, 5)] :
        List (TagEntry × ℕ × ℕ)), e.2.1 % 4 = 0) ∧
      128 + (4 + ([⟨[119, 116, 112, 116],
          ['0', '1', '0', '2', '0', '3', '0', '4', '0', '5'], 0⟩] :
            List TagEntry).length * 12)
        + ([1, 2, 3, 4, 5, 0, 0, 0] : List ℕ).length = 152 :=
  C10_layout_alignment
    [⟨[119, 116, 112, 116], ['0', '1', '0', '2', '0', '3', '0', '4', '0', '5'], 0⟩]
    [(⟨[119, 116, 112, 116],
        ['0', '1', '0', '2', '0', '3', '0', '4', '0', '5'], 0⟩, 144, 5)]
    [1, 2, 3, 4, 5, 0, 0, 0] 152 (by decide)

theorem pyFromhex_length : ∀ (s : List Char) (b : List ℕ),
    pyFromhex s = some b → 2 * b.length ≤ s.length
  | [], b, h => by
    rw [pyFromhex] at h
    injection h with h'
    rw [← h']
    simp
  | c :: rest, b, h => by
    rw [pyFromhex] at h
    by_cases hsp : isPySpace c
    · rw [if_pos hsp] at h
      have := pyFromhex_length rest b h
      simp only [List.length_cons]
      omega
    · rw [if_neg hsp] at h
      cases hv1 : hexVal? c with
      | none => rw [hv1] at h; cases h
      | some v1 =>
        rw [hv1] at h
        dsimp only at h
        cases rest with
        | nil => cases h
        | cons c2 rest2 =>
          dsimp only at h
          cases hv2 : hexVal? c2 with
          | none => rw [hv2] at h; cases h
          | some v2 =>
            rw [hv2] at h
            cases hrec : pyFromhex rest2 with
            | none => rw [hrec] at h; cases h
            | some b' =>
              rw [hrec] at h
              simp only [Option.map_some', Option.some.injEq] at h
              have := pyFromhex_length rest2 b' hrec
              rw [← h]
              simp only [List.length_cons]
              omega
termination_by s _ _ => s.length

/-- Generic decomposition of a `Forall₂` along a middle element of the
right-hand list. -/
theorem forall₂_decompP {α β : Type} (P : α → β → Prop) :
    ∀ {pre : List β} {xs : List α} {y : β} {post : List β},
    List.Forall₂ P xs (pre ++ y :: post) →
    ∃ x1 x x2, xs = x1 ++ x :: x2 ∧
      List.Forall₂ P x1 pre ∧ P x y ∧ List.Forall₂ P x2 post := by
  intro pre
  induction pre with
  | nil =>
    intro xs y post h
    rw [List.nil_append] at h
    cases h with
    | cons ha ht => exact ⟨[], _, _, rfl, .nil, ha, ht⟩
  | cons g pre' ih =>
    intro xs y post h
    rw [List.cons_append] at h
    cases h with
    | cons ha ht =>
      obtain ⟨x1, x, x2, rfl, h1, h2, h3⟩ := ih ht
      exact ⟨_ :: x1, x, x2, rfl, .cons ha h1, h2, h3⟩

/-- Generic map-of-lengths from a `Forall₂` whose predicate fixes
segment lengths. -/
theorem forall₂_map_len {P : List ℕ → HeaderField → Prop}
    (hlen : ∀ s f, P s f → s.length = f.length) :
    ∀ {segs : List (List ℕ)} {fs : List HeaderField},
    List.Forall₂ P segs fs → segs.map List.length = fs.map (·.length) := by
  intro segs fs h
  induction h with
  | nil => rfl
  | cons h1 _ ih => simp [hlen _ _ h1, ih]

theorem fieldsBytes_inv (hv : String → List Char) :
    ∀ (fs : List HeaderField) (segs : List (List ℕ)),
    fieldsBytes hv fs = .ok segs → List.Forall₂ (SegDecode hv) segs fs := by
  intro fs
  induction fs with
  | nil =>
    intro segs h
    unfold fieldsBytes at h
    injection h with h'
    rw [← h']
    exact .nil
  | cons f rest ih =>
    intro segs h
    unfold fieldsBytes at h
    cases hfb : fieldBytes hv f with
    | error e => rw [hfb] at h; cases h
    | ok fb =>
      rw [hfb] at h
      dsimp only at h
      cases hrest : fieldsBytes hv rest with
      | error e => rw [hrest] at h; cases h
      | ok tl =>
        rw [hrest] at h
        injection h with h'
        rw [← h']
        refine .cons ?_ (ih tl hrest)
        unfold fieldBytes at hfb
        cases hpy : pyFromhex ((cleanedOf f (hv f.key)).take (2 * f.length)) with
        | none => rw [hpy] at hfb; cases hfb
        | some d =>
          rw [hpy] at hfb
          injection hfb with hfb'
          have hdlen : 2 * d.length ≤ ((cleanedOf f (hv f.key)).take (2 * f.length)).length :=
            pyFromhex_length _ d hpy
          rw [List.length_take] at hdlen
          refine ⟨?_, d, hpy, hfb'.symm⟩
          rw [← hfb']
          simp only [List.length_append, List.length_replicate]
          omega

theorem build_header_bytes_length (hv : String → List Char) (t : ℕ)
    (bs : List ℕ) (h : build_header_bytes hv t = .ok bs) :
    bs.length = 128 := by
  unfold build_header_bytes at h
  split at h
  · cases h
  · dsimp only at h
    split at h
    · cases h
    · split at h
      · cases h
      · rename_i hlen
        injection h with h'
        rw [← h']
        omega

/-- Window slicing inside the left part of an append. -/
theorem slice_append_left (a b : List ℕ) (i k : ℕ) (h : i + k ≤ a.length) :
    ((a ++ b).drop i).take k = (a.drop i).take k := by
  rw [List.drop_append_of_le_length (by omega)]
  rw [List.take_append_of_le_length (by simp; omega)]

/-- A successfully built header carries 16 zero bytes at positions
84–99 whenever the supplied profile-id hex is the 32-character zero
string. -/
theorem build_header_profile_id_zeros (hv : String → List Char) (t : ℕ)
    (bs : List ℕ) (hpid : hv "profile_id" = List.replicate 32 '0')
    (h : build_header_bytes hv t = .ok bs) :
    (bs.drop 84).take 16 = List.replicate 16 0 := by
  unfold build_header_bytes at h
  cases hsz : int_to_hex t 4 with
  | error e => rw [hsz] at h; cases h
  | ok sizeHex =>
    rw [hsz] at h
    dsimp only at h
    cases hfs : fieldsBytes (fun k => if k = "size" then sizeHex else hv k)
        HEADER_FIELDS with
    | error e => rw [hfs] at h; cases h
    | ok segs =>
      rw [hfs] at h
      dsimp only at h
      by_cases hlen : segs.flatten.length ≠ 128
      · rw [if_pos hlen] at h; cases h
      · rw [if_neg hlen] at h
        injection h with h'
        rw [← h']
        have hforall := fieldsBytes_inv _ HEADER_FIELDS segs hfs
        have hdec : HEADER_FIELDS =
            ([⟨"size", 4, "size"⟩, ⟨"cmm_type", 4, "sig"⟩,
              ⟨"version", 4, "version"⟩, ⟨"device_class", 4, "choice"⟩,
              ⟨"color_space", 4, "choice"⟩, ⟨"pcs", 4, "choice"⟩,
              ⟨"date_time", 12, "datetime-fixed"⟩, ⟨"acsp", 4, "sig-fixed"⟩,
              ⟨"platform", 4, "choice"⟩, ⟨"flags", 4, "flags"⟩,
              ⟨"manufacturer", 4, "sig-limited"⟩, ⟨"model", 4, "sig-limited"⟩,
              ⟨"attributes", 8, "attributes"⟩,
              ⟨"rendering_intent", 4, "intent"⟩,
              ⟨"illuminant", 12, "illuminant"⟩,
              ⟨"creator", 4, "sig-limited"⟩] : List HeaderField) ++
            (⟨"profile_id", 16, "profile_id"⟩ : HeaderField) ::
            [⟨"reserved", 28, "hex"⟩] := rfl
        obtain ⟨s1, seg, s2, hsegs, h1, h2, h3⟩ :=
          forall₂_decompP (SegDecode _) (hdec ▸ hforall)
        obtain ⟨hlen16, d, hd, hval⟩ := h2
        have hkey : (fun k => if k = "size" then sizeHex else hv k)
            ((⟨"profile_id", 16, "profile_id"⟩ : HeaderField).key)
            = List.replicate 32 '0' := by
          simpa using hpid
        rw [show cleanedOf (⟨"profile_id", 16, "profile_id"⟩ : HeaderField)
            ((fun k => if k = "size" then sizeHex else hv k)
              ((⟨"profile_id", 16, "profile_id"⟩ : HeaderField).key))
            = (fun k => if k = "size" then sizeHex else hv k)
              ((⟨"profile_id", 16, "profile_id"⟩ : HeaderField).key)
          from by unfold cleanedOf; rw [if_neg (by decide)], hkey] at hd
        rw [show (List.replicate 32 '0').take
            (2 * (⟨"profile_id", 16, "profile_id"⟩ : HeaderField).length)
            = List.replicate 32 '0' from by simp] at hd
        rw [show pyFromhex (List.replicate 32 '0')
            = some (List.replicate 16 (0 : ℕ)) from by decide] at hd
        injection hd with hd'
        rw [hsegs]
        have hmap := forall₂_map_len (fun s f hp => hp.1) h1
        have hsum : (s1.map List.length).sum = 84 := by
          rw [hmap]
          rfl
        have hext := flatten_extract s1 seg s2
        rw [hsum, hlen16] at hext
        rw [show ((⟨"profile_id", 16, "profile_id"⟩ : HeaderField)).length = 16
          from rfl] at hext
        rw [hext, hval, ← hd']
        simp

/-- C2: every profile byte stream produced by `build_profile_bytes`
carries at bytes 84–99 exactly the digest of the stream with those 16
bytes zeroed (the digest function is any 16-byte hash, as `hashlib.md5`
is). -/
theorem C2_profile_id_selfconsistent (md5 : List ℕ → List ℕ)
    (hmd5 : ∀ l, (md5 l).length = 16) (hv : String → List Char)
    (nowHex : List Char) (tags : List TagEntry) (p : List ℕ)
    (hbuild : build_profile_bytes md5 hv nowHex tags = .ok p) :
    md5 (p.take 84 ++ List.replicate 16 0 ++ p.drop 100)
      = (p.drop 84).take 16 := by
  unfold build_profile_bytes at hbuild
  cases hlt : _layout_tags tags with
  | error e => rw [hlt] at hbuild; cases hbuild
  | ok triple =>
    obtain ⟨layout, data_blocks, total_size⟩ := triple
    rw [hlt] at hbuild
    dsimp only at hbuild
    cases hsz : int_to_hex total_size 4 with
    | error e => rw [hsz] at hbuild; cases hbuild
    | ok sizeHex =>
      rw [hsz] at hbuild
      dsimp only at hbuild
      cases hhd : build_header_bytes
          (fun k => if k = "size" then sizeHex
            else if k = "date_time" then nowHex
            else if k = "profile_id" then List.replicate 32 '0'
            else hv k) total_size with
      | error e => rw [hhd] at hbuild; cases hbuild
      | ok header =>
        rw [hhd] at hbuild
        dsimp only at hbuild
        cases hcb : packU32 tags.length with
        | error e => rw [hcb] at hbuild; cases hbuild
        | ok countB =>
          rw [hcb] at hbuild
          dsimp only at hbuild
          cases htb : buildTagTable layout with
          | error e => rw [htb] at hbuild; cases hbuild
          | ok table =>
            rw [htb] at hbuild
            dsimp only at hbuild
            by_cases hplen :
              (header ++ (countB ++ table) ++ data_blocks).length ≠ total_size
            · rw [if_pos hplen] at hbuild; cases hbuild
            · rw [if_neg hplen] at hbuild
              injection hbuild with hp
              set profile := header ++ (countB ++ table) ++ data_blocks
                with hprofdef
              have hhl : header.length = 128 := build_header_bytes_length _ _ _ hhd
              have hzeros : (header.drop 84).take 16 = List.replicate 16 0 :=
                build_header_profile_id_zeros _ _ _ (by simp) hhd
              have hp84 : (profile.drop 84).take 16 = List.replicate 16 0 := by
                rw [hprofdef, List.append_assoc]
                rw [slice_append_left header _ 84 16 (by omega)]
                exact hzeros
              have hp' : p = profile.take 84 ++ md5 profile ++ profile.drop 100 :=
                hp.symm
              have hdl : (md5 profile).length = 16 := hmd5 profile
              have ht84 : (profile.take 84).length = 84 := by
                rw [List.length_take]
                rw [hprofdef]
                simp [hhl]
                omega
              have hptake : p.take 84 = profile.take 84 := by
                rw [hp', List.append_assoc]
                exact List.take_left' ht84
              have hpdrop84 : (p.drop 84).take 16 = md5 profile := by
                rw [hp', List.append_assoc, List.drop_left' ht84]
                exact List.take_left' hdl
              have hpdrop100 : p.drop 100 = profile.drop 100 := by
                rw [hp']
                exact List.drop_left' (by rw [List.length_append, ht84, hdl])
              have hdd : (profile.drop 84).drop 16 = profile.drop 100 := by
                rw [List.drop_drop]
              have h2 : (profile.drop 84).take 16 ++ profile.drop 100
                  = profile.drop 84 := by
                rw [← hdd, List.take_append_drop]
              have hre : profile.take 84 ++ List.replicate 16 0
                  ++ profile.drop 100 = profile := by
                calc profile.take 84 ++ List.replicate 16 0 ++ profile.drop 100
                    = profile.take 84 ++ (List.replicate 16 0 ++ profile.drop 100) := by
                      rw [List.append_assoc]
                  _ = profile.take 84 ++ ((profile.drop 84).take 16 ++ profile.drop 100) := by
                      rw [hp84]
                  _ = profile.take 84 ++ profile.drop 84 := by rw [h2]
                  _ = profile := List.take_append_drop 84 profile
              rw [hptake, hpdrop100, hpdrop84, hre]

set_option maxRecDepth 8000 in
/-- Witness for C2: the empty tag list, all-empty header map, zero
hash function.  The 132-byte profile stores the digest of its zeroed
form at bytes 84–99. -/
theorem C2_profile_id_selfconsistent_witness :
    (∀ l : List ℕ, ((fun _ => List.replicate 16 (0 : ℕ)) l).length = 16) ∧
    build_profile_bytes (fun _ => List.replicate 16 0) (fun _ => []) [] []
      = .ok [0, 0, 0, 132, 0, 0, 0, 0, 0, 0, 0, 0, 0, 0, 0, 0, 0, 0, 0, 0,
          0, 0, 0, 0, 0, 0, 0, 0, 0, 0, 0, 0, 0, 0, 0, 0, 0, 0, 0, 0,
          0, 0, 0, 0, 0, 0, 0, 0, 0, 0, 0, 0, 0, 0, 0, 0, 0, 0, 0, 0,
          0, 0, 0, 0, 0, 0, 0, 0, 0, 0, 0, 0, 0, 0, 0, 0, 0, 0, 0, 0,
          0, 0, 0, 0, 0, 0, 0, 0, 0, 0, 0, 0, 0, 0, 0, 0, 0, 0, 0, 0,
          0, 0, 0, 0, 0, 0, 0, 0, 0, 0, 0, 0, 0, 0, 0, 0, 0, 0, 0, 0,
          0, 0, 0, 0, 0, 0, 0, 0, 0, 0, 0, 0] ∧
    (fun _ => List.replicate 16 (0 : ℕ))
        (([0, 0, 0, 132, 0, 0, 0, 0, 0, 0, 0, 0, 0, 0, 0, 0, 0, 0, 0, 0,
          0, 0, 0, 0, 0, 0, 0, 0, 0, 0, 0, 0, 0, 0, 0, 0, 0, 0, 0, 0,
          0, 0, 0, 0, 0, 0, 0, 0, 0, 0, 0, 0, 0, 0, 0, 0, 0, 0, 0, 0,
          0, 0, 0, 0, 0, 0, 0, 0, 0, 0, 0, 0, 0, 0, 0, 0, 0, 0, 0, 0,
          0, 0, 0, 0, 0, 0, 0, 0, 0, 0, 0, 0, 0, 0, 0, 0, 0, 0, 0, 0,
          0, 0, 0, 0, 0, 0, 0, 0, 0, 0, 0, 0, 0, 0, 0, 0, 0, 0, 0, 0,
          0, 0, 0, 0, 0, 0, 0, 0, 0, 0, 0, 0] : List ℕ).take 84
          ++ List.replicate 16 0
          ++ ([0, 0, 0, 132, 0, 0, 0, 0, 0, 0, 0, 0, 0, 0, 0, 0, 0, 0, 0, 0,
          0, 0, 0, 0, 0, 0, 0, 0, 0, 0, 0, 0, 0, 0, 0, 0, 0, 0, 0, 0,
          0, 0, 0, 0, 0, 0, 0, 0, 0, 0, 0, 0, 0, 0, 0, 0, 0, 0, 0, 0,
          0, 0, 0, 0, 0, 0, 0, 0, 0, 0, 0, 0, 0, 0, 0, 0, 0, 0, 0, 0,
          0, 0, 0, 0, 0, 0, 0, 0, 0, 0, 0, 0, 0, 0, 0, 0, 0, 0, 0, 0,
          0, 0, 0, 0, 0, 0, 0, 0, 0, 0, 0, 0, 0, 0, 0, 0, 0, 0, 0, 0,
          0, 0, 0, 0, 0, 0, 0, 0, 0, 0, 0, 0] : List ℕ).drop 100)
      = (([0, 0, 0, 132, 0, 0, 0, 0, 0, 0, 0, 0, 0, 0, 0, 0, 0, 0, 0, 0,
          0, 0, 0, 0, 0, 0, 0, 0, 0, 0, 0, 0, 0, 0, 0, 0, 0, 0, 0, 0,
          0, 0, 0, 0, 0, 0, 0, 0, 0, 0, 0, 0, 0, 0, 0, 0, 0, 0, 0, 0,
          0, 0, 0, 0, 0, 0, 0, 0, 0, 0, 0, 0, 0, 0, 0, 0, 0, 0, 0, 0,
          0, 0, 0, 0, 0, 0, 0, 0, 0, 0, 0, 0, 0, 0, 0, 0, 0, 0, 0, 0,
          0, 0, 0, 0, 0, 0, 0, 0, 0, 0, 0, 0, 0, 0, 0, 0, 0, 0, 0, 0,
          0, 0, 0, 0, 0, 0, 0, 0, 0, 0, 0, 0] : List ℕ).drop 84).take 16 :=
  ⟨fun l => by simp,
    by decide,
    C2_profile_id_selfconsistent (fun _ => List.replicate 16 0)
      (fun l => by simp) (fun _ => []) [] [] _ (by decide)⟩

theorem parseEntries_ok (data : List ℕ) (tEnd : ℕ) :
    ∀ (n i : ℕ), (∀ k, i ≤ k → k < i + n → entryOk data tEnd k) →
    ∃ tl, parseEntries data tEnd n i = .ok tl ∧ tl.length = n ∧
      ∀ m, m < n → tl.getD m ⟨[], [], 0⟩ = mkLoadedTag data (i + m) := by
  intro n
  induction n with
  | zero => intro i _; exact ⟨[], rfl, rfl, fun m hm => absurd hm (by omega)⟩
  | succ n ih =>
    intro i hall
    obtain ⟨hA, hB, hC⟩ := hall i (le_refl i) (by omega)
    obtain ⟨tl, htl, hlen, hget⟩ := ih (i + 1)
      (fun k hk1 hk2 => hall k (by omega) (by omega))
    refine ⟨mkLoadedTag data i :: tl, ?_, by simp [hlen], ?_⟩
    · unfold parseEntries
      rw [if_neg hA, if_neg hB, if_neg (by omega), htl]
    · intro m hm
      cases m with
      | zero => simp
      | succ m' =>
        have := hget m' (by omega)
        simp only [List.getD_cons_succ]
        rw [this]
        congr 1
        omega

theorem parseEntries_err (data : List ℕ) (tEnd : ℕ) :
    ∀ (n i j : ℕ), i ≤ j → j < i + n →
    (∀ k, i ≤ k → k < j → entryOk data tEnd k) → ¬ entryOk data tEnd j →
    parseEntries data tEnd n i = .error (entryErr data tEnd j) := by
  intro n
  induction n with
  | zero => intro i j h1 h2; omega
  | succ n ih =>
    intro i j h1 h2 hgood hbad
    by_cases hij : j = i
    · subst hij
      unfold entryOk at hbad
      push_neg at hbad
      unfold parseEntries entryErr
      by_cases hA : data.length < dirOffset data j + dirSize data j
      · rw [if_pos hA, if_pos hA]
      · rw [if_neg hA, if_neg hA]
        by_cases hB : dirOffset data j < tEnd
        · rw [if_pos hB, if_pos hB]
        · rw [if_neg hB, if_neg hB]
          have hC := hbad (by omega) (by omega)
          rw [if_pos hC]
    · have hiok := hgood i (le_refl i) (by omega)
      obtain ⟨hA, hB, hC⟩ := hiok
      unfold parseEntries
      rw [if_neg hA, if_neg hB, if_neg (by omega)]
      rw [ih (i + 1) j (by omega) (by omega)
        (fun k hk1 hk2 => hgood k (by omega) hk2) hbad]

theorem readHeaderFields_ok (data : List ℕ) :
    ∀ (fs : List HeaderField) (pos : ℕ),
    pos + (fs.map (·.length)).sum ≤ data.length →
    readHeaderFields data fs pos = .ok (headerSlices data fs pos) := by
  intro fs
  induction fs with
  | nil => intro pos h; rfl
  | cons f rest ih =>
    intro pos h
    simp only [List.map_cons, List.sum_cons] at h
    unfold readHeaderFields headerSlices
    have hlen : ((data.drop pos).take f.length).length = f.length := by
      rw [List.length_take, List.length_drop]
      omega
    rw [if_neg (by simp [hlen])]
    rw [ih (pos + f.length) (by omega)]

theorem headerSlices_acsp (data : List ℕ) :
    (headerSlices data HEADER_FIELDS 0).lookup "acsp"
      = some (bytesToHex ((data.drop 36).take 4)) := by
  simp [HEADER_FIELDS, headerSlices, List.lookup]

/-- Under the C6 hypotheses, `load_profile` reduces to the directory
loop (header reading, the `acsp` check, the table bound and the size
rewrite all succeed). -/
theorem load_profile_eq (data : List ℕ) (h132 : 132 ≤ data.length)
    (hsz32 : data.length < 4294967296)
    (hacsp : (data.drop 36).take 4 = [97, 99, 115, 112])
    (htable : 132 + tagCount data * 12 ≤ data.length) :
    load_profile data
      = match parseEntries data (132 + tagCount data * 12) (tagCount data) 0 with
        | .error e => .error e
        | .ok tags =>
          .ok ((headerSlices data HEADER_FIELDS 0).map
            (fun p => if p.1 = "size" then (p.1, natToHexChars data.length 4) else p),
            tags) := by
  unfold load_profile
  rw [if_neg (by omega)]
  rw [readHeaderFields_ok data HEADER_FIELDS 0
    (by rw [show ((HEADER_FIELDS.map (·.length)).sum) = 128 from rfl]; omega)]
  dsimp only
  rw [headerSlices_acsp, hacsp]
  rw [if_neg (by rw [show bytesToHex [97, 99, 115, 112]
    = ['6', '1', '6', '3', '7', '3', '7', '0'] from by decide]; simp)]
  rw [if_neg (by omega)]
  cases hpe : parseEntries data (132 + tagCount data * 12) (tagCount data) 0 with
  | error e => rfl
  | ok tags =>
    dsimp only
    have hith : int_to_hex data.length 4 = .ok (natToHexChars data.length 4) := by
      unfold int_to_hex
      have h4 : (256 : ℕ) ^ 4 = 4294967296 := by norm_num
      rw [if_neg (by omega)]
    rw [hith]

theorem parseEntries_ok_inv (data : List ℕ) (tEnd : ℕ) :
    ∀ (n i : ℕ) (tl : List TagEntry),
    parseEntries data tEnd n i = .ok tl →
    tl.length = n ∧ (∀ k, i ≤ k → k < i + n → entryOk data tEnd k) ∧
      ∀ m, m < n → tl.getD m ⟨[], [], 0⟩ = mkLoadedTag data (i + m) := by
  intro n
  induction n with
  | zero =>
    intro i tl h
    injection h with h'
    rw [← h']
    exact ⟨rfl, fun k hk1 hk2 => by omega, fun m hm => by omega⟩
  | succ n ih =>
    intro i tl h
    unfold parseEntries at h
    by_cases hA : data.length < dirOffset data i + dirSize data i
    · rw [if_pos hA] at h; cases h
    · rw [if_neg hA] at h
      by_cases hB : dirOffset data i < tEnd
      · rw [if_pos hB] at h; cases h
      · rw [if_neg hB] at h
        by_cases hC : (entryChunk data i).length ≠ dirSize data i
        · rw [if_pos hC] at h; cases h
        · rw [if_neg hC] at h
          cases hrec : parseEntries data tEnd n (i + 1) with
          | error e => rw [hrec] at h; cases h
          | ok tl' =>
            rw [hrec] at h
            injection h with h'
            obtain ⟨hlen, hok, hget⟩ := ih (i + 1) tl' hrec
            rw [← h']
            refine ⟨by simp [hlen], ?_, ?_⟩
            · intro k hk1 hk2
              by_cases hki : k = i
              · subst hki
                exact ⟨hA, hB, by omega⟩
              · exact hok k (by omega) (by omega)
            · intro m hm
              cases m with
              | zero => simp
              | succ m' =>
                have := hget m' (by omega)
                simp only [List.getD_cons_succ]
                rw [this]
                congr 1
                omega

/-- C6: on any input of at least 132 bytes (below 2^32) with a valid
`acsp` signature whose tag table fits, the parser fails for a
directory entry exactly when `offset+size` exceeds the file length
(TagOutOfBounds), or the offset lies before the end of the tag table
(TagOverlapsDirectory), or the sliced byte count differs from the
declared size (SizeMismatch) — reported in that order for the first
bad entry — and otherwise retains every tag (decoded signature, hex of
the sliced chunk, offset). -/
theorem C6_parser_entry_conditions (data : List ℕ)
    (h132 : 132 ≤ data.length) (hsz32 : data.length < 4294967296)
    (hacsp : (data.drop 36).take 4 = [97, 99, 115, 112])
    (htable : 132 + tagCount data * 12 ≤ data.length) :
    ((∃ r, load_profile data = .ok r) ↔
      ∀ i, i < tagCount data → entryOk data (132 + tagCount data * 12) i) ∧
    (∀ hm tags, load_profile data = .ok (hm, tags) →
      tags.length = tagCount data ∧
      ∀ i, i < tags.length → tags.getD i ⟨[], [], 0⟩ = mkLoadedTag data i) ∧
    (∀ i, i < tagCount data →
      (∀ k, k < i → entryOk data (132 + tagCount data * 12) k) →
      ¬ entryOk data (132 + tagCount data * 12) i →
      load_profile data
        = .error (entryErr data (132 + tagCount data * 12) i)) := by
  have hEQ := load_profile_eq data h132 hsz32 hacsp htable
  refine ⟨⟨?_, ?_⟩, ?_, ?_⟩
  · rintro ⟨r, hr⟩
    rw [hEQ] at hr
    cases hpe : parseEntries data (132 + tagCount data * 12) (tagCount data) 0 with
    | error e => rw [hpe] at hr; cases hr
    | ok tl =>
      obtain ⟨-, hok, -⟩ := parseEntries_ok_inv data _ _ _ tl hpe
      intro i hi
      exact hok i (by omega) (by omega)
  · intro hall
    obtain ⟨tl, htl, -, -⟩ := parseEntries_ok data (132 + tagCount data * 12)
      (tagCount data) 0 (fun k hk1 hk2 => hall k (by omega))
    rw [hEQ, htl]
    exact ⟨_, rfl⟩
  · intro hm tags hok
    rw [hEQ] at hok
    cases hpe : parseEntries data (132 + tagCount data * 12) (tagCount data) 0 with
    | error e => rw [hpe] at hok; cases hok
    | ok tl =>
      rw [hpe] at hok
      injection hok with hok'
      have htags : tags = tl := by
        have hsnd := congrArg Prod.snd hok'
        simp only at hsnd
        exact hsnd.symm
      obtain ⟨hlen, -, hget⟩ := parseEntries_ok_inv data _ _ _ tl hpe
      constructor
      · rw [htags, hlen]
      · intro i hi
        rw [htags]
        have := hget i (by rw [htags, hlen] at hi; omega)
        rw [this]
        congr 1
        omega
  · intro i hi hgood hbad
    have herr := parseEntries_err data (132 + tagCount data * 12)
      (tagCount data) 0 i (by omega) (by omega)
      (fun k hk1 hk2 => hgood k hk2) hbad
    rw [hEQ, herr]

set_option maxRecDepth 8000 in
/-- Witness for C6 on `c6WitnessData`. -/
theorem C6_parser_entry_conditions_witness :
    ((∃ r, load_profile c6WitnessData = .ok r) ↔
      ∀ i, i < tagCount c6WitnessData →
        entryOk c6WitnessData (132 + tagCount c6WitnessData * 12) i) ∧
    (∀ hm tags, load_profile c6WitnessData = .ok (hm, tags) →
      tags.length = tagCount c6WitnessData ∧
      ∀ i, i < tags.length →
        tags.getD i ⟨[], [], 0⟩ = mkLoadedTag c6WitnessData i) ∧
    (∀ i, i < tagCount c6WitnessData →
      (∀ k, k < i → entryOk c6WitnessData (132 + tagCount c6WitnessData * 12) k) →
      ¬ entryOk c6WitnessData (132 + tagCount c6WitnessData * 12) i →
      load_profile c6WitnessData
        = .error (entryErr c6WitnessData
            (132 + tagCount c6WitnessData * 12) i)) :=
  C6_parser_entry_conditions c6WitnessData (by decide) (by decide)
    (by decide) (by decide)
